import Mathlib

/-!
Shallow embedding of `src/utils.py` from the Claims-Description-Normalizer
repository, with proofs about the embedded functions.

Modelling conventions:
* Python strings are Lean `String`s (indexed as `List Char` where needed).
* Python floats are modelled as exact rationals `ℚ`; the numeric strings the
  code manipulates are short decimal literals, so IEEE-754 rounding plays no
  role in any statement verified here.
* Python dicts with string keys are association lists looked up at the first
  matching key; `dict.get(key, default)` is `dictGet`.
* `json.loads` is embedded as a fueled recursive-descent parser mirroring the
  CPython `json` decoder (strict mode): whitespace set ` \t\n\r`, the
  `null`/`true`/`false`/`NaN`/`Infinity`/`-Infinity` literals, the decoder's
  number grammar, strict string scanning (raw control characters rejected,
  surrogate-pair `\uXXXX` handling), objects with last-key-wins duplicate
  semantics, and the trailing `Extra data` check.  Error strings abbreviate
  CPython's decode-error messages (the code under verification only stores
  them verbatim in a `details` field and never inspects them).
* `str.lower` / case-insensitive regex matching is modelled on ASCII letters.
-/

/-- Characters matched by Python's `str.strip()` and the regex class `\s`
(ASCII part). -/
def isPyWs (c : Char) : Bool :=
  c = ' ' || c = '\t' || c = '\n' || c = '\r' || c = Char.ofNat 11 || c = Char.ofNat 12

/-- Whitespace skipped by the CPython `json` decoder (`' \t\n\r'`). -/
def isJsonWs (c : Char) : Bool :=
  c = ' ' || c = '\t' || c = '\n' || c = '\r'

def isDigitCh (c : Char) : Bool :=
  '0' ≤ c && c ≤ '9'

/-- The backtick character (written via its code point). -/
def btick : Char := Char.ofNat 96

/-- The single-quote character. -/
def squote : Char := Char.ofNat 39

/-- The double-quote character. -/
def dquote : Char := Char.ofNat 34

/-- Python `str.lower()` (ASCII letters). -/
def pyLower (s : String) : String := ⟨s.data.map Char.toLower⟩

/-- Python `str.strip()` on a character list. -/
def stripList (l : List Char) : List Char :=
  ((l.dropWhile isPyWs).reverse.dropWhile isPyWs).reverse

/-- Python `str.strip()`. -/
def pyStrip (s : String) : String := ⟨stripList s.data⟩

/-- One fueled step list of Python `str.replace(pat, '')` (all occurrences,
left to right, non-overlapping). -/
def eraseSubF : Nat → List Char → List Char → List Char
  | 0, l, _ => l
  | _ + 1, [], _ => []
  | f + 1, c :: rest, pat =>
    if pat.isPrefixOf (c :: rest) && !pat.isEmpty then
      eraseSubF f ((c :: rest).drop pat.length) pat
    else
      c :: eraseSubF f rest pat

/-- Python `s.replace(pat, '')`. -/
def eraseSub (l pat : List Char) : List Char := eraseSubF (l.length + 1) l pat

/-- JSON numbers as produced by the CPython decoder: `int` for pure integer
literals, `float` (modelled as an exact rational) when a fraction or exponent
is present, plus the non-finite constants the decoder accepts. -/
inductive JNum where
  | int : Int → JNum
  | float : ℚ → JNum
  | nan : JNum
  | inf : JNum
  | ninf : JNum
deriving DecidableEq

/-- JSON values (Python objects produced by `json.loads`). -/
inductive Json where
  | null : Json
  | bool : Bool → Json
  | num : JNum → Json
  | str : String → Json
  | arr : List Json → Json
  | obj : List (String × Json) → Json

/-- Python dict insertion `d[k] = v`: replace in place if the key exists,
else append. -/
def dictSet (d : List (String × Json)) (k : String) (v : Json) : List (String × Json) :=
  if d.any (fun p => p.1 == k) then
    d.map (fun p => if p.1 == k then (k, v) else p)
  else
    d ++ [(k, v)]

def hexVal (c : Char) : Option Nat :=
  if '0' ≤ c && c ≤ '9' then some (c.toNat - 48)
  else if 'a' ≤ c && c ≤ 'f' then some (c.toNat - 87)
  else if 'A' ≤ c && c ≤ 'F' then some (c.toNat - 55)
  else none

def hex4 : List Char → Option (Nat × List Char)
  | a :: b :: c :: d :: rest =>
    match hexVal a, hexVal b, hexVal c, hexVal d with
    | some x, some y, some z, some w => some (((x * 16 + y) * 16 + z) * 16 + w, rest)
    | _, _, _, _ => none
  | _ => none

/-- The decoder's backslash-escape table. -/
def escChar (c : Char) : Option Char :=
  if c = dquote then some dquote
  else if c = '\\' then some '\\'
  else if c = '/' then some '/'
  else if c = 'b' then some (Char.ofNat 8)
  else if c = 'f' then some (Char.ofNat 12)
  else if c = 'n' then some '\n'
  else if c = 'r' then some '\r'
  else if c = 't' then some '\t'
  else none

/-- CPython `py_scanstring` (strict mode), after the opening quote: returns
the decoded content and the input after the closing quote.  A `\uXXXX`
escape that is a lone surrogate decodes to an unpaired code point in Python;
`Char.ofNat` maps it to `'\0'` here (no verified statement depends on it). -/
def parseStrBody : Nat → List Char → List Char → Except String (List Char × List Char)
  | 0, _, _ => .error "json depth exhausted"
  | _ + 1, [], _ => .error "Unterminated string starting at"
  | f + 1, c :: rest, acc =>
    if c = dquote then .ok (acc.reverse, rest)
    else if c = '\\' then
      match rest with
      | [] => .error "Unterminated string starting at"
      | e :: rest2 =>
        if e = 'u' then
          match hex4 rest2 with
          | none => .error "Invalid hex escape"
          | some (code, rest3) =>
            if 0xD800 ≤ code && code ≤ 0xDBFF then
              match rest3 with
              | b1 :: b2 :: rest4 =>
                if b1 = '\\' && b2 = 'u' then
                  match hex4 rest4 with
                  | some (code2, rest5) =>
                    if 0xDC00 ≤ code2 && code2 ≤ 0xDFFF then
                      parseStrBody f rest5
                        (Char.ofNat (0x10000 + (code - 0xD800) * 0x400 + (code2 - 0xDC00)) :: acc)
                    else parseStrBody f rest3 (Char.ofNat code :: acc)
                  | none => parseStrBody f rest3 (Char.ofNat code :: acc)
                else parseStrBody f rest3 (Char.ofNat code :: acc)
              | _ => parseStrBody f rest3 (Char.ofNat code :: acc)
            else parseStrBody f rest3 (Char.ofNat code :: acc)
        else
          match escChar e with
          | some ch => parseStrBody f rest2 (ch :: acc)
          | none => .error "Invalid escape"
    else if c.toNat < 0x20 then .error "Invalid control character"
    else parseStrBody f rest (c :: acc)

def digitsToNat (l : List Char) : Nat :=
  l.foldl (fun n c => n * 10 + (c.toNat - 48)) 0

/-- Value of a decoded number token: integer part digits, optional fraction
digits, optional exponent.  Pure integer literals give `JNum.int`, anything
else `JNum.float` (exact rational model of Python's `float(token)`). -/
def numValue (neg : Bool) (ip : List Char) (fr : Option (List Char))
    (ex : Option (Bool × List Char)) : JNum :=
  match fr, ex with
  | none, none =>
    let n : Int := Int.ofNat (digitsToNat ip)
    .int (if neg then -n else n)
  | _, _ =>
    let frDigits := (fr.getD [])
    let mant : Int := Int.ofNat (digitsToNat (ip ++ frDigits))
    let smant : Int := if neg then -mant else mant
    let exVal : Int :=
      (match ex with
       | some (eneg, eds) =>
         let e : Int := Int.ofNat (digitsToNat eds)
         if eneg then -e else e
       | none => 0) - Int.ofNat frDigits.length
    let q : ℚ :=
      if 0 ≤ exVal then ((smant * 10 ^ exVal.toNat : ℤ) : ℚ)
      else mkRat smant (10 ^ (-exVal).toNat)
    .float q

/-- The optional fraction part `(\.\d+)?` of the decoder's number regex. -/
def numFrac (l2 : List Char) : Option (List Char) × List Char :=
  match l2 with
  | d :: r2 =>
    if d = '.' then
      if (r2.takeWhile isDigitCh).isEmpty then (none, l2)
      else (some (r2.takeWhile isDigitCh), r2.dropWhile isDigitCh)
    else (none, l2)
  | [] => (none, l2)

/-- The optional exponent part `([eE][-+]?\d+)?` of the decoder's number
regex. -/
def numExp (l3 : List Char) : Option (Bool × List Char) × List Char :=
  match l3 with
  | d :: r2 =>
    if d = 'e' || d = 'E' then
      match
        (match r2 with
         | s :: r4 =>
           if s = '-' then (true, r4)
           else if s = '+' then (false, r4)
           else (false, r2)
         | [] => ((false : Bool), r2)) with
      | (eneg, r3) =>
        if (r3.takeWhile isDigitCh).isEmpty then (none, l3)
        else (some (eneg, r3.takeWhile isDigitCh), r3.dropWhile isDigitCh)
    else (none, l3)
  | [] => (none, l3)

/-- The decoder's `NUMBER_RE` applied at the start of `l`:
`(-?(?:0|[1-9]\d*))(\.\d+)?([eE][-+]?\d+)?`. -/
def tryNumber (l : List Char) : Option (JNum × List Char) :=
  let (neg, l1) :=
    match l with
    | c :: rest => if c = '-' then (true, rest) else (false, l)
    | [] => (false, l)
  match l1 with
  | [] => none
  | c :: rest =>
    if c = '0' || (isDigitCh c && c ≠ '0') then
      let ip := if c = '0' then [c] else c :: rest.takeWhile isDigitCh
      let l2 := if c = '0' then rest else rest.dropWhile isDigitCh
      let (fr, l3) := numFrac l2
      let (ex, l4) := numExp l3
      some (numValue neg ip fr ex, l4)
    else none

mutual

/-- CPython `scan_once`: one JSON value at the head of the input (no leading
whitespace expected), returning the value and the rest. -/
def parseVal : Nat → List Char → Except String (Json × List Char)
  | 0, _ => .error "json depth exhausted"
  | _ + 1, [] => .error "Expecting value"
  | f + 1, c :: rest =>
    if c = dquote then
      match parseStrBody (rest.length + 1) rest [] with
      | .ok (content, r) => .ok (.str ⟨content⟩, r)
      | .error e => .error e
    else if c = Char.ofNat 123 then parseObjStart f rest
    else if c = '[' then parseArrStart f rest
    else if List.isPrefixOf "null".data (c :: rest) then .ok (.null, (c :: rest).drop 4)
    else if List.isPrefixOf "true".data (c :: rest) then .ok (.bool true, (c :: rest).drop 4)
    else if List.isPrefixOf "false".data (c :: rest) then .ok (.bool false, (c :: rest).drop 5)
    else
      match tryNumber (c :: rest) with
      | some (n, r) => .ok (.num n, r)
      | none =>
        if List.isPrefixOf "NaN".data (c :: rest) then .ok (.num .nan, (c :: rest).drop 3)
        else if List.isPrefixOf "Infinity".data (c :: rest) then
          .ok (.num .inf, (c :: rest).drop 8)
        else if List.isPrefixOf "-Infinity".data (c :: rest) then
          .ok (.num .ninf, (c :: rest).drop 9)
        else .error "Expecting value"

/-- CPython `JSONArray`, after the opening bracket. -/
def parseArrStart : Nat → List Char → Except String (Json × List Char)
  | 0, _ => .error "json depth exhausted"
  | f + 1, l =>
    let l1 := l.dropWhile isJsonWs
    match l1 with
    | c :: rest =>
      if c = ']' then .ok (.arr [], rest)
      else
        match parseArrElems f l1 with
        | .ok (vs, r) => .ok (.arr vs, r)
        | .error e => .error e
    | [] => .error "Expecting value"

/-- Elements of a JSON array, starting at a value. -/
def parseArrElems : Nat → List Char → Except String (List Json × List Char)
  | 0, _ => .error "json depth exhausted"
  | f + 1, l =>
    match parseVal f l with
    | .error e => .error e
    | .ok (v, r1) =>
      let r2 := r1.dropWhile isJsonWs
      match r2 with
      | [] => .error "Expecting comma delimiter"
      | c :: rest =>
        if c = ']' then .ok ([v], rest)
        else if c = ',' then
          match parseArrElems f (rest.dropWhile isJsonWs) with
          | .ok (vs, r) => .ok (v :: vs, r)
          | .error e => .error e
        else .error "Expecting comma delimiter"

/-- CPython `JSONObject`, after the opening brace. -/
def parseObjStart : Nat → List Char → Except String (Json × List Char)
  | 0, _ => .error "json depth exhausted"
  | f + 1, l =>
    let l1 := l.dropWhile isJsonWs
    match l1 with
    | c :: rest =>
      if c = Char.ofNat 125 then .ok (.obj [], rest)
      else if c = dquote then
        match parseObjFields f l1 with
        | .ok (ps, r) => .ok (.obj (ps.foldl (fun acc p => dictSet acc p.1 p.2) []), r)
        | .error e => .error e
      else .error "Expecting property name enclosed in double quotes"
    | [] => .error "Expecting property name enclosed in double quotes"

/-- Members of a JSON object, starting at a key string's opening quote. -/
def parseObjFields : Nat → List Char → Except String (List (String × Json) × List Char)
  | 0, _ => .error "json depth exhausted"
  | f + 1, l =>
    match l with
    | c :: rest =>
      if c = dquote then
        match parseStrBody (rest.length + 1) rest [] with
        | .error e => .error e
        | .ok (key, r1) =>
          let r2 := r1.dropWhile isJsonWs
          match r2 with
          | c2 :: r3 =>
            if c2 = ':' then
              let r4 := r3.dropWhile isJsonWs
              match parseVal f r4 with
              | .error e => .error e
              | .ok (v, r5) =>
                let r6 := r5.dropWhile isJsonWs
                match r6 with
                | c3 :: r7 =>
                  if c3 = Char.ofNat 125 then .ok ([(⟨key⟩, v)], r7)
                  else if c3 = ',' then
                    match parseObjFields f (r7.dropWhile isJsonWs) with
                    | .ok (ps, r) => .ok ((⟨key⟩, v) :: ps, r)
                    | .error e => .error e
                  else .error "Expecting comma delimiter"
                | [] => .error "Expecting comma delimiter"
            else .error "Expecting colon delimiter"
          | [] => .error "Expecting colon delimiter"
      else .error "Expecting property name enclosed in double quotes"
    | [] => .error "Expecting property name enclosed in double quotes"

end

/-- Python `json.loads`: skip leading whitespace, scan one value, skip
trailing whitespace, reject anything left over. -/
def jsonLoads (s : String) : Except String Json :=
  let l := s.data.dropWhile isJsonWs
  match parseVal (2 * l.length + 2) l with
  | .error e => .error e
  | .ok (v, r) => if (r.dropWhile isJsonWs).isEmpty then .ok v else .error "Extra data"

/-- Does the regex metacharacter `$` (MULTILINE) match at this input
position, i.e. end of string or just before a newline? -/
def eolAt : List Char → Bool
  | [] => true
  | c :: _ => c = '\n'

/-- One left-to-right pass of
`re.sub(r'^```(?:json)?\s*|\s*```$', '', text, flags=re.MULTILINE)`:
`ls` records whether the current position is at a line start (`^`).
At each position the first alternative is tried first (as in regex
alternation), matches are removed, and scanning resumes after the match. -/
def fenceGo : Nat → Bool → List Char → List Char
  | 0, _, l => l
  | _ + 1, _, [] => []
  | f + 1, ls, c :: rest =>
    if ls && List.isPrefixOf [btick, btick, btick] (c :: rest) then
      let l1 := (c :: rest).drop 3
      let l2 := if List.isPrefixOf "json".data l1 then l1.drop 4 else l1
      let ws := l2.takeWhile isPyWs
      let l3 := l2.dropWhile isPyWs
      let nls :=
        match ws.getLast? with
        | some lc => lc = '\n'
        | none => false
      fenceGo f nls l3
    else
      let l2 := (c :: rest).dropWhile isPyWs
      if List.isPrefixOf [btick, btick, btick] l2 && eolAt (l2.drop 3) then
        fenceGo f false (l2.drop 3)
      else
        c :: fenceGo f (c = '\n') rest

/-- The fence-removing substitution of `parse_gemini_response`. -/
def resubFences (l : List Char) : List Char := fenceGo (l.length + 1) true l

/-- The cleaning step of `parse_gemini_response`: strip, then remove fence
markers when the text starts with three backticks. -/
def cleanFences (s : String) : String :=
  let t := pyStrip s
  if List.isPrefixOf [btick, btick, btick] t.data then ⟨resubFences t.data⟩ else t

/-- The failure dictionary returned by `parse_gemini_response` when
`json.loads` raises a decode error. -/
def parseFailure (raw details : String) : Json :=
  .obj [("error", .str "Failed to parse response"),
        ("raw_response", .str raw),
        ("details", .str details)]

/-- `utils.parse_gemini_response`: strip the raw text, remove markdown code
fences, decode as JSON; on a decode error return the failure dictionary
carrying the original raw text.  The Python function is total on strings
(the only exception raised by the body, `json.JSONDecodeError`, is caught);
the embedding is a total function accordingly. -/
def parse_gemini_response (s : String) : Json :=
  match jsonLoads (cleanFences s) with
  | .ok v => v
  | .error e => parseFailure s e

/-- Is this character one of the regex class `['\"]`? -/
def isQuote (c : Char) : Bool := c = squote || c = dquote

/-- `re.findall(r"['\"]([^'\"]+)['\"]", explanation)`: at each position try
to match a quote character, a nonempty run of non-quote characters, and a
closing quote character; on a match the run is captured and scanning resumes
after the match, otherwise scanning moves one character forward. -/
def kwScanF : Nat → List Char → List (List Char)
  | 0, _ => []
  | _ + 1, [] => []
  | f + 1, c :: rest =>
    if isQuote c then
      let run := rest.takeWhile (fun x => !(isQuote x))
      let rest2 := rest.dropWhile (fun x => !(isQuote x))
      match rest2 with
      | [] => kwScanF f rest
      | _ :: tail => if run.isEmpty then kwScanF f rest else run :: kwScanF f tail
    else kwScanF f rest

/-- `utils.extract_keywords_from_explanation`. -/
def extract_keywords_from_explanation (explanation : String) : List String :=
  (kwScanF (explanation.data.length + 1) explanation.data).map fun l => ⟨l⟩

/-- Specification-level description of the keyword extractor, following the
claim's words: scanning left to right, a quote character opens a span, the
very next quote character closes it (non-greedy, non-nested), nonempty span
contents are returned in order of appearance with duplicates retained. -/
def kwSpec : Option (List Char) → List Char → List (List Char)
  | _, [] => []
  | none, c :: rest => if isQuote c then kwSpec (some []) rest else kwSpec none rest
  | some acc, c :: rest =>
    if isQuote c then
      if acc.isEmpty then kwSpec (some []) rest else acc :: kwSpec none rest
    else kwSpec (some (acc ++ [c])) rest

/-- The literal HTML prefix inserted before each highlighted match. -/
def spanOpen : String :=
  "<span style=\"background-color: #ffeb3b; color: #000000; padding: 2px 4px; border-radius: 3px; font-weight: bold;\">"

/-- The literal HTML suffix inserted after each highlighted match. -/
def spanClose : String := "</span>"

/-- The replacement produced for a regex match `m`:
the span markup around `m.group()` (the matched text, casing preserved). -/
def wrapSpan (m : String) : String := spanOpen ++ m ++ spanClose

/-- Case-insensitive comparison of `kw` against a prefix of `l`
(regex `re.escape(keyword)` with `re.IGNORECASE`, ASCII model). -/
def ciPrefix (kw l : List Char) : Bool :=
  (l.take kw.length).map Char.toLower == kw.map Char.toLower

/-- `pattern.sub` for a nonempty literal keyword: scan left to right; wrap
each (non-overlapping, leftmost) case-insensitive occurrence, keeping the
matched characters; matches are searched in the remaining original input
only, never inside just-inserted markup. -/
def replOne : Nat → List Char → List Char → List Char
  | 0, l, _ => l
  | _ + 1, [], _ => []
  | f + 1, c :: rest, kw =>
    if ciPrefix kw (c :: rest) then
      spanOpen.data ++ (c :: rest).take kw.length ++ spanClose.data
        ++ replOne f ((c :: rest).drop kw.length) kw
    else c :: replOne f rest kw

/-- `pattern.sub` for one keyword; an empty keyword matches zero-width at
every position, inserting empty span markup there (Python ≥ 3.7 `re.sub`
semantics). -/
def replaceKeyword (t kw : List Char) : List Char :=
  if kw.isEmpty then
    t.foldr (fun c acc => (spanOpen.data ++ spanClose.data) ++ c :: acc)
      (spanOpen.data ++ spanClose.data)
  else replOne (t.length + 1) t kw

/-- The sort key of `sorted(keywords, key=len, reverse=True)`: longer
strings first; `insertionSort` with this relation is a stable descending
sort, matching Python's stable `sorted`. -/
def lenGE (a b : String) : Prop := b.length ≤ a.length

instance : DecidableRel lenGE := fun a b => Nat.decLe b.length a.length

instance : IsTotal String lenGE := ⟨fun a b => Nat.le_total b.length a.length⟩

instance : IsTrans String lenGE := ⟨fun _ _ _ h1 h2 => Nat.le_trans h2 h1⟩

/-- `utils.highlight_keywords_in_text`. -/
def highlight_keywords_in_text (text : String) (keywords : List String) : String :=
  (List.insertionSort lenGE keywords).foldl
    (fun t k => ⟨replaceKeyword t.data k.data⟩) text

/-- String-valued Python dicts (association lists, first key wins). -/
def StrDict := List (String × String)

/-- Python `d.get(k, defv)`. -/
def dictGet (d : StrDict) (k defv : String) : String :=
  match List.find? (fun p => p.1 == k) d with
  | some p => p.2
  | none => defv

/-- Python `k in d`. -/
def hasKey (d : StrDict) (k : String) : Bool :=
  List.any d (fun p => p.1 == k)

/-- The required-field list of `validate_extracted_data` and
`calculate_completeness_score` (same list, same order, in the source). -/
def required_fields : List String :=
  ["loss_type", "severity", "affected_assets", "estimated_loss",
   "incident_date", "location", "confidence", "extraction_explanation"]

/-- `utils.validate_extracted_data`. -/
def validate_extracted_data (d : StrDict) : Bool × List String :=
  let missing_fields := required_fields.filter (fun f => !(hasKey d f))
  (missing_fields.length == 0, missing_fields)

/-- The sentinel list of `calculate_completeness_score`. -/
def sentinelValues : List String := ["Unknown", "Not specified", "N/A", ""]

/-- `utils.calculate_completeness_score`: `(filled, total, percentage)`. -/
def calculate_completeness_score (d : StrDict) : Nat × Nat × ℚ :=
  let filled_count :=
    required_fields.countP fun f =>
      let value := dictGet d f ""
      value != "" && !(sentinelValues.contains value)
  let total_count := required_fields.length
  let percentage : ℚ :=
    if total_count > 0 then ((filled_count : ℚ) / (total_count : ℚ)) * 100 else 0
  (filled_count, total_count, percentage)

/-- The sentinel list of `parse_estimated_loss` (lower case). -/
def lossSentinels : List String := ["not specified", "unknown", "n/a"]

/-- The first currency literal removed by `parse_estimated_loss`.  The
repository file is mojibake-damaged: the literal is the three characters
U+201A U+00C7 U+03C0 (a rupee sign decoded twice), embedded here verbatim. -/
def rupeeSym : List Char := [Char.ofNat 0x201A, Char.ofNat 0xC7, Char.ofNat 0x3C0]

/-- The third currency literal removed by `parse_estimated_loss`
(U+201A U+00C7 U+00A8, a euro sign decoded twice). -/
def euroSym : List Char := [Char.ofNat 0x201A, Char.ofNat 0xC7, Char.ofNat 0xA8]

/-- The cleaning pipeline of `parse_estimated_loss`: lower-case, drop
currency literals, the words over/around/approximately, and commas, then
strip. -/
def cleanLossChars (s : String) : List Char :=
  let l0 := s.data.map Char.toLower
  let l1 := eraseSub l0 rupeeSym
  let l2 := eraseSub l1 ['$']
  let l3 := eraseSub l2 euroSym
  let l4 := eraseSub l3 "over".data
  let l5 := eraseSub l4 "around".data
  let l6 := eraseSub l5 "approximately".data
  let l7 := eraseSub l6 [',']
  stripList l7

/-- Value of a matched number token `ds ++ "." ++ fs` (or just `ds`) as an
exact rational (Python `float` of a short decimal literal). -/
def decimalTokenValue (ds fs : List Char) : ℚ :=
  if fs.isEmpty then ((digitsToNat ds : ℕ) : ℚ)
  else mkRat (Int.ofNat (digitsToNat (ds ++ fs))) (10 ^ fs.length)

/-- First match of `re.findall(r'\d+\.?\d*', cleaned)`, as a value. -/
def firstNumber : List Char → Option ℚ
  | [] => none
  | c :: rest =>
    if isDigitCh c then
      let ds := c :: rest.takeWhile isDigitCh
      let r1 := rest.dropWhile isDigitCh
      match r1 with
      | dot :: r2 =>
        if dot = '.' then some (decimalTokenValue ds (r2.takeWhile isDigitCh))
        else some (decimalTokenValue ds [])
      | [] => some (decimalTokenValue ds [])
    else firstNumber rest

/-- `utils.parse_estimated_loss`. -/
def parse_estimated_loss (loss_str : String) : ℚ :=
  if loss_str = "" || lossSentinels.contains (pyLower loss_str) then 0
  else
    match firstNumber (cleanLossChars loss_str) with
    | some q => q
    | none => 0

/-- Rounding of Python's float format `:.0f` (round half to even), on the
exact rational model. -/
def roundHalfEven (q : ℚ) : ℤ :=
  let n := q.num
  let d : ℤ := (q.den : ℤ)
  let i := Int.ediv n d
  let r := Int.emod n d
  if 2 * r < d then i
  else if d < 2 * r then i + 1
  else if i % 2 = 0 then i else i + 1

/-- Insert a comma after every three characters (input reversed digits). -/
def group3 : List Char → List Char
  | a :: b :: c :: d :: rest => a :: b :: c :: ',' :: group3 (d :: rest)
  | l => l

/-- Python `f"{x:,.0f}"`. -/
def fmtCommas (q : ℚ) : String :=
  let n := roundHalfEven q
  let digits := (Nat.repr n.natAbs).data
  (if n < 0 then "-" else "") ++ ⟨(group3 digits.reverse).reverse⟩

/-- One recommendation dictionary produced by `generate_recommendations`. -/
structure Recommendation where
  action : String
  priority : String
  category : String
  icon : String
  reasoning : String
deriving DecidableEq

/-- Python `pat in s` on character lists: `pat` is a prefix of some suffix. -/
def listHasInfix (pat : List Char) : List Char → Bool
  | [] => pat.isEmpty
  | c :: rest => pat.isPrefixOf (c :: rest) || listHasInfix pat rest

/-- Python `pat in s` (substring test). -/
def strInStr (pat s : String) : Bool := listHasInfix pat.data s.data

/-- The sentinels checked for `incident_date` and `location` in
`generate_recommendations`. -/
def dateSentinels : List String := ["not specified", "unknown"]

/-- The `missing_info` list built at the top of `generate_recommendations`. -/
def missingInfo (incident_date location : String) (estimated_loss : ℚ) : List String :=
  (if dateSentinels.contains (pyLower incident_date) then ["incident date"] else []) ++
  (if dateSentinels.contains (pyLower location) then ["location"] else []) ++
  (if estimated_loss = 0 then ["cost estimate"] else [])

/-- Rule 1 of `generate_recommendations` (low confidence). -/
def rule1Block (confidence : String) : List Recommendation :=
  if confidence = "low" then
    [⟨"Request Additional Documentation", "High", "Verification", "üìÑ",
      "Low confidence in data extraction. Need customer clarification to ensure accuracy."⟩,
     ⟨"Contact Customer for Details", "High", "Communication", "üìû",
      "Missing or unclear information requires direct customer contact."⟩]
  else []

/-- Rules 2–4 of `generate_recommendations`: the if/elif/elif severity
chain. -/
def sevBranchBlock (severity confidence : String) (estimated_loss : ℚ) : List Recommendation :=
  if severity = "low" ∧ confidence = "high" ∧ estimated_loss < 10000 then
    [⟨"Fast-track Approval", "High", "Processing", "üöÄ",
      "Low severity with high confidence and minimal cost. Safe for quick approval."⟩,
     ⟨"Simple Phone Verification", "Medium", "Verification", "üìû",
      "Quick call to confirm details before approval."⟩]
  else if severity = "medium" then
    [⟨"Standard Review Process", "Medium", "Processing", "üìã",
      "Medium severity requires standard assessment procedures."⟩,
     ⟨"Request Photos/Documentation", "Medium", "Documentation", "üì∏",
      "Visual evidence needed to validate damage extent."⟩,
     ⟨"Schedule Assessment Within 5 Days", "Medium", "Administrative", "üìÖ",
      "Timely assessment ensures accurate damage evaluation."⟩]
  else if severity = "high" ∨ severity = "critical" then
    [⟨"Detailed Investigation Required", "Critical", "Processing", "üîç",
      "High severity claim requires thorough investigation and documentation."⟩,
     ⟨"Assign Senior Adjuster", "High", "Administrative", "üë®‚Äçüíº",
      "Complex case requiring experienced adjuster expertise."⟩,
     ⟨"Schedule On-site Inspection", "Critical", "Verification", "üö®",
      "Physical inspection mandatory for high-value claims."⟩]
  else []

/-- Rule 5 of `generate_recommendations` (high-value claims). -/
def rule5Block (estimated_loss : ℚ) : List Recommendation :=
  if (50000 : ℚ) < estimated_loss then
    [⟨"Supervisor Approval Required", "Critical", "Administrative", "üëî",
      "Claim value ($" ++ fmtCommas estimated_loss ++ ") exceeds standard approval threshold."⟩,
     ⟨"Request Independent Assessment", "High", "Verification", "üîé",
      "High-value claim requires third-party validation."⟩]
  else []

/-- Rule 6 of `generate_recommendations` (loss-type keywords). -/
def rule6Block (loss_type : String) : List Recommendation :=
  (if strInStr "theft" loss_type then
    [⟨"Verify Police Report", "Critical", "Verification", "üöî",
      "Theft claims require official police documentation."⟩]
   else []) ++
  (if strInStr "fire" loss_type then
    [⟨"Request Fire Department Report", "High", "Documentation", "üöí",
      "Fire incident requires official fire department documentation."⟩]
   else []) ++
  (if strInStr "flood" loss_type || strInStr "water" loss_type then
    [⟨"Verify Weather Records", "Medium", "Verification", "üåßÔ∏è",
      "Cross-reference with official weather data for validation."⟩]
   else []) ++
  (if strInStr "accident" loss_type || strInStr "collision" loss_type then
    [⟨"Request Accident Report", "High", "Documentation", "üìã",
      "Vehicle accidents require official accident documentation."⟩]
   else [])

/-- Rule 7 of `generate_recommendations` (missing critical information). -/
def rule7Block (missing_info : List String) : List Recommendation :=
  if missing_info.isEmpty then []
  else
    [⟨"Collect Missing Information", "High", "Documentation", "‚ö†Ô∏è",
      "Critical fields missing: " ++ String.intercalate ", " missing_info
        ++ ". Required for processing."⟩]

/-- Rule 8 of `generate_recommendations` (recent incidents). -/
def rule8Block (incident_date : String) : List Recommendation :=
  if strInStr "today" (pyLower incident_date) || strInStr "yesterday" (pyLower incident_date) then
    [⟨"Priority Processing", "High", "Processing", "‚ö°",
      "Recent incident requires prompt attention and quick response."⟩]
  else []

/-- The rule-9 fallback recommendation. -/
def stdBlock : List Recommendation :=
  [⟨"Standard Claim Processing", "Medium", "Processing", "üìã",
    "Process through standard workflow with routine verification."⟩]

/-- The `severity` local of `generate_recommendations`. -/
def sevOf (d : StrDict) : String := pyLower (dictGet d "severity" "Unknown")

/-- The `confidence` local of `generate_recommendations`. -/
def confOf (d : StrDict) : String := pyLower (dictGet d "confidence" "Unknown")

/-- The `loss_type` local of `generate_recommendations`. -/
def ltOf (d : StrDict) : String := pyLower (dictGet d "loss_type" "Unknown")

/-- The `estimated_loss` local of `generate_recommendations`. -/
def lossOf (d : StrDict) : ℚ := parse_estimated_loss (dictGet d "estimated_loss" "0")

/-- The `incident_date` local of `generate_recommendations`. -/
def dateOf (d : StrDict) : String := dictGet d "incident_date" "Not specified"

/-- The `location` local of `generate_recommendations`. -/
def locOf (d : StrDict) : String := dictGet d "location" "Not specified"

/-- The recommendation list built by `generate_recommendations` before the
rule-9 fallback: the rule blocks appended in source order (rule 1; the
if/elif/elif severity chain of rules 2–4; rule 5; the four loss-type rules;
rule 7; rule 8). -/
def coreRecs (d : StrDict) : List Recommendation :=
  rule1Block (confOf d) ++ sevBranchBlock (sevOf d) (confOf d) (lossOf d) ++
  rule5Block (lossOf d) ++ rule6Block (ltOf d) ++
  rule7Block (missingInfo (dateOf d) (locOf d) (lossOf d)) ++
  rule8Block (dateOf d)

/-- `utils.generate_recommendations`. -/
def generate_recommendations (extracted_data : StrDict) : List Recommendation :=
  if (coreRecs extracted_data).isEmpty then stdBlock else coreRecs extracted_data

/-- The action strings of a recommendation list. -/
def recActions (rs : List Recommendation) : List String := rs.map fun r => r.action

/-- The missing-item list as the claim words it: which of incident date /
location / cost estimate are missing, in that fixed order, with the two date
and location sentinels spelled out and the cost criterion being a parsed
loss of 0. -/
def missingSpec (d : StrDict) : List String :=
  (if pyLower (dictGet d "incident_date" "Not specified") = "not specified"
      ∨ pyLower (dictGet d "incident_date" "Not specified") = "unknown"
    then ["incident date"] else []) ++
  (if pyLower (dictGet d "location" "Not specified") = "not specified"
      ∨ pyLower (dictGet d "location" "Not specified") = "unknown"
    then ["location"] else []) ++
  (if parse_estimated_loss (dictGet d "estimated_loss" "0") = 0
    then ["cost estimate"] else [])

example : parse_estimated_loss "Over $200,000" = 200000 := by decide
example : parse_estimated_loss "Not specified" = 0 := by decide
example : parse_estimated_loss "" = 0 := by decide
example : parse_estimated_loss "no digits here" = 0 := by decide
example : fmtCommas 200000 = "200,000" := rfl
example :
    (generate_recommendations
      [("severity", "low"), ("confidence", "high"), ("estimated_loss", "$500")]).map
      (fun r => r.action) =
    ["Fast-track Approval", "Simple Phone Verification", "Collect Missing Information"] := by
  decide
example :
    (generate_recommendations
      [("severity", "critical"), ("confidence", "high"), ("estimated_loss", "$200,000"),
       ("loss_type", "fire")]).map (fun r => r.action) =
    ["Detailed Investigation Required", "Assign Senior Adjuster", "Schedule On-site Inspection",
     "Supervisor Approval Required", "Request Independent Assessment",
     "Request Fire Department Report", "Collect Missing Information"] := by
  decide
/-- A one-character string holding a single quote (kept out of string
literals). -/
def squoteStr : String := ⟨[squote]⟩

example : cleanFences "```json\n\x7b\"a\":1\x7d\n```" = "\x7b\"a\":1\x7d" := rfl
example : parse_gemini_response "```json\n\x7b\"a\":1\x7d\n```" = .obj [("a", .num (.int 1))] := rfl
example : parse_gemini_response "\x7b\"a\":1\x7d" = .obj [("a", .num (.int 1))] := rfl
example : cleanFences "```python\n\x7b\"a\":1\x7d\n```" = ⟨"python\n\x7b\"a\":1\x7d".data⟩ := rfl
example :
    parse_gemini_response "```python\n\x7b\"a\":1\x7d\n```" =
      parseFailure "```python\n\x7b\"a\":1\x7d\n```" "Expecting value" := rfl
example :
    parse_gemini_response "```\nnot json\n```" =
      parseFailure "```\nnot json\n```" "Expecting value" := rfl
example : parse_gemini_response "not json" = parseFailure "not json" "Expecting value" := rfl
example :
    extract_keywords_from_explanation
      ("Classified as " ++ squoteStr ++ "Fire" ++ squoteStr ++ " due to " ++ squoteStr ++ "smoke damage" ++ squoteStr) =
    ["Fire", "smoke damage"] := by decide
example :
    highlight_keywords_in_text "customer reported FIRE damage" ["fire"] =
      "customer reported " ++ wrapSpan "FIRE" ++ " damage" := rfl
example : highlight_keywords_in_text "abc" [] = "abc" := rfl
example : jsonLoads "\x7b\"a\":1\x7d" = .ok (.obj [("a", .num (.int 1))]) := rfl

/-- A pair of adjacent characters that the fence-removing substitution can
never see as part of a match inside decodable JSON text: the substitution
only removes backtick fences at a line start or a line end, so the dangerous
adjacencies are newline-then-backtick and backtick-then-newline. -/
def adjOK (a b : Char) : Prop := ¬ (a = '\n' ∧ b = btick) ∧ ¬ (a = btick ∧ b = '\n')

/-- An edge character of a JSON token: not whitespace and not a backtick. -/
def tokEdge (c : Char) : Prop := isPyWs c = false ∧ c ≠ btick

instance tokEdgeDecidable : DecidablePred tokEdge :=
  fun c => decidable_of_iff (isPyWs c = false ∧ c ≠ btick) Iff.rfl

/-- The text consumed for one JSON value: nonempty, token edges at both
ends, and free of backtick/newline adjacencies. -/
def GoodTok (C : List Char) : Prop :=
  C ≠ [] ∧ (∀ h, C.head? = some h → tokEdge h) ∧ (∀ x, C.getLast? = some x → tokEdge x)
    ∧ List.Chain' adjOK C

/-- The text consumed after an opening bracket/brace (may start with
whitespace, ends at the closing bracket/brace). -/
def GoodCont (C : List Char) : Prop :=
  C ≠ [] ∧ (∀ x, C.getLast? = some x → tokEdge x) ∧ List.Chain' adjOK C

/-! ## Theorems -/

theorem parse_gemini_response_eq (s : String) :
    parse_gemini_response s =
      match jsonLoads (cleanFences s) with
      | .ok v => v
      | .error e => parseFailure s e := rfl

/-- Claim C1: for every input string on which the (fence-stripped, whitespace
stripped) text fails to decode as JSON, `parse_gemini_response` returns the
failure mapping whose `error` field is the parse-failure kind, whose
`raw_response` field is the exact original input string verbatim, and whose
`details` field is the decode-error detail string; the embedded function is
total on strings, so no exception escapes (the Python body catches
`json.JSONDecodeError`, the only error its body raises). -/
theorem parse_failure_preserves_raw (s e : String)
    (h : jsonLoads (cleanFences s) = .error e) :
    parse_gemini_response s = parseFailure s e := by
  rw [parse_gemini_response_eq, h]

/-- Witness for C1 at the concrete non-JSON inputs `"not json"` and `""`. -/
theorem parse_failure_preserves_raw_witness :
    parse_gemini_response "not json" = parseFailure "not json" "Expecting value"
      ∧ parse_gemini_response "" = parseFailure "" "Expecting value" :=
  ⟨parse_failure_preserves_raw "not json" "Expecting value" rfl,
   parse_failure_preserves_raw "" "Expecting value" rfl⟩

/-- Claim C10: for every input string whose cleaned text decodes as JSON,
`parse_gemini_response` returns the decoded value as the success result even
when that value is not a JSON object (array, bare number, quoted string, …):
the success path imposes no mapping shape on the result. -/
theorem parse_success_any_shape (s : String) (v : Json)
    (h : jsonLoads (cleanFences s) = .ok v) :
    parse_gemini_response s = v := by
  rw [parse_gemini_response_eq, h]

/-- Witness for C10 at non-object JSON inputs: an array, a bare number and a
quoted string each come back as the decoded value itself. -/
theorem parse_success_any_shape_witness :
    parse_gemini_response "[1,2]" = .arr [.num (.int 1), .num (.int 2)]
      ∧ parse_gemini_response "42" = .num (.int 42)
      ∧ parse_gemini_response "\"ok\"" = .str "ok" :=
  ⟨parse_success_any_shape "[1,2]" _ rfl,
   parse_success_any_shape "42" _ rfl,
   parse_success_any_shape "\"ok\"" _ rfl⟩

/-- Claim C4: `parse_estimated_loss` returns 0 exactly when the string is
empty or case-insensitively one of the sentinels not specified / unknown /
n/a, and otherwise strips currency symbols, the words over / around /
approximately and commas, then returns the first decimal-number token of the
cleaned text (0 when no number remains); in particular
`parse_estimated_loss "Over $200,000" = 200000` and
`parse_estimated_loss "Not specified" = 0`. -/
theorem parse_estimated_loss_spec :
    (∀ s : String,
        parse_estimated_loss s =
          if s = "" ∨ pyLower s ∈ lossSentinels then 0
          else (firstNumber (cleanLossChars s)).getD 0)
      ∧ parse_estimated_loss "Over $200,000" = 200000
      ∧ parse_estimated_loss "Not specified" = 0 := by
  refine ⟨fun s => ?_, by decide, by decide⟩
  unfold parse_estimated_loss
  by_cases hp : s = "" ∨ pyLower s ∈ lossSentinels
  · rw [if_pos (by simpa using hp), if_pos hp]
  · rw [if_neg (by simpa using hp), if_neg hp]
    cases firstNumber (cleanLossChars s) <;> rfl

theorem list_beq_zero_isEmpty (l : List String) : (l.length == 0) = l.isEmpty := by
  cases l <;> rfl

/-- Claim C5: `validate_extracted_data` counts a required field as present
purely by key existence (its result depends only on which keys exist, not on
any value), `is_complete` is true iff none of the 8 required keys is absent,
the missing fields come back in the fixed source order, and on the empty
mapping it returns `(false, all 8 fields)`. -/
theorem validate_by_key_existence :
    (∀ d : StrDict,
        validate_extracted_data d =
          ((required_fields.filter fun f => !(hasKey d f)).isEmpty,
            required_fields.filter fun f => !(hasKey d f)))
      ∧ (∀ d : StrDict,
          ((validate_extracted_data d).1 = true ↔ ∀ f ∈ required_fields, hasKey d f = true))
      ∧ (∀ d dd : StrDict, (∀ k, hasKey d k = hasKey dd k) →
          validate_extracted_data d = validate_extracted_data dd)
      ∧ validate_extracted_data [] = (false, required_fields) := by
  refine ⟨fun d => ?_, fun d => ?_, fun d dd h => ?_, by decide⟩
  · simp only [validate_extracted_data]
    rw [list_beq_zero_isEmpty]
  · simp only [validate_extracted_data]
    simp only [beq_iff_eq, List.length_eq_zero, List.filter_eq_nil_iff]
    constructor
    · intro h f hf
      have := h f hf
      simpa using this
    · intro h f hf
      simp [h f hf]
  · simp only [validate_extracted_data]
    rw [List.filter_congr (fun f _ => by rw [h f])]

/-- Witness for C5: two mappings with the same keys but different values
(one sentinel-valued) validate identically, and the empty mapping yields
`(false, all 8 required fields)`. -/
theorem validate_by_key_existence_witness :
    validate_extracted_data [("severity", "Unknown"), ("location", "")] =
        validate_extracted_data [("severity", "high"), ("location", "Pune")]
      ∧ validate_extracted_data [] = (false, required_fields) :=
  ⟨validate_by_key_existence.2.2.1 _ _ (fun _ => rfl),
   validate_by_key_existence.2.2.2⟩

/-- The filled-count of `calculate_completeness_score` as a filtered list
length. -/
def meaningfulCount (d : StrDict) : Nat :=
  (required_fields.filter fun f =>
    dictGet d f "" != "" && !(sentinelValues.contains (dictGet d f ""))).length

/-- Claim C6: `calculate_completeness_score` counts a required field as
meaningfully filled iff its value is non-empty and none of the four literal
sentinels (case-sensitive), and returns the percentage
`filled / 8 * 100`; a record with exactly 4 of the 8 required fields
meaningfully filled scores exactly 50. -/
theorem completeness_score_spec :
    (∀ d : StrDict,
        calculate_completeness_score d =
          (meaningfulCount d, 8, ((meaningfulCount d : ℚ) / 8) * 100))
      ∧ (∀ d : StrDict, meaningfulCount d = 4 →
          (calculate_completeness_score d).2.2 = 50) := by
  have key : ∀ d : StrDict,
      calculate_completeness_score d =
        (meaningfulCount d, 8, ((meaningfulCount d : ℚ) / 8) * 100) := by
    intro d
    unfold calculate_completeness_score meaningfulCount
    rw [List.countP_eq_length_filter]
    norm_num [required_fields]
  refine ⟨key, fun d h => ?_⟩
  rw [key d, h]
  norm_num

/-- Witness for C6: a mapping holding exactly 4 meaningfully filled required
fields scores exactly 50 percent. -/
theorem completeness_score_spec_witness :
    (calculate_completeness_score
      [("loss_type", "fire"), ("severity", "high"),
       ("confidence", "high"), ("location", "Pune")]).2.2 = 50 :=
  completeness_score_spec.2 _ (by decide)
example : jsonLoads " [1, 2] " = .ok (.arr [.num (.int 1), .num (.int 2)]) := rfl
example : jsonLoads "not json" = .error "Expecting value" := rfl
example : jsonLoads "" = .error "Expecting value" := rfl
example : jsonLoads "1 2" = .error "Extra data" := rfl
example : jsonLoads "\"x\"" = .ok (.str "x") := rfl
example :
    (match jsonLoads "-12.5" with
     | .ok (.num (.float q)) => (q.num, q.den)
     | _ => (0, 0)) = (-25, 2) := rfl
example : jsonLoads "\x7b\"a\":1,\"a\":2\x7d" = .ok (.obj [("a", .num (.int 2))]) := rfl

theorem filter_collect_rule1 (c : String) :
    (rule1Block c).filter (fun r => r.action == "Collect Missing Information") = [] := by
  unfold rule1Block
  split_ifs <;> rfl

theorem filter_collect_sev (sev conf : String) (q : ℚ) :
    (sevBranchBlock sev conf q).filter
      (fun r => r.action == "Collect Missing Information") = [] := by
  unfold sevBranchBlock
  split_ifs <;> rfl

theorem filter_collect_rule5 (q : ℚ) :
    (rule5Block q).filter (fun r => r.action == "Collect Missing Information") = [] := by
  unfold rule5Block
  split_ifs <;> rfl

theorem filter_collect_rule6 (lt : String) :
    (rule6Block lt).filter (fun r => r.action == "Collect Missing Information") = [] := by
  unfold rule6Block
  simp only [List.filter_append]
  split_ifs <;> rfl

theorem filter_collect_rule7 (m : List String) :
    (rule7Block m).filter (fun r => r.action == "Collect Missing Information") =
      rule7Block m := by
  unfold rule7Block
  split_ifs <;> rfl

theorem filter_collect_rule8 (i : String) :
    (rule8Block i).filter (fun r => r.action == "Collect Missing Information") = [] := by
  unfold rule8Block
  split_ifs <;> rfl

theorem missingSpec_eq (d : StrDict) :
    missingInfo (dateOf d) (locOf d) (lossOf d) = missingSpec d := by
  simp [missingInfo, missingSpec, dateSentinels, dateOf, locOf, lossOf]

theorem rule7Block_eq_nil (m : List String) : rule7Block m = [] ↔ m = [] := by
  cases m <;> simp [rule7Block]

theorem gen_filter_collect (d : StrDict) :
    (generate_recommendations d).filter
        (fun r => r.action == "Collect Missing Information") =
      rule7Block (missingInfo (dateOf d) (locOf d) (lossOf d)) := by
  unfold generate_recommendations coreRecs
  split
  next h =>
    rw [List.isEmpty_iff] at h
    simp only [List.append_eq_nil] at h
    rw [h.1.2]
    rfl
  next h =>
    simp only [List.filter_append, filter_collect_rule1, filter_collect_sev,
      filter_collect_rule5, filter_collect_rule6, filter_collect_rule7,
      filter_collect_rule8, List.nil_append, List.append_nil]

/-- Claim C7: `generate_recommendations` emits exactly one
Collect Missing Information recommendation (priority High, category
Documentation) iff the incident date is case-insensitively the sentinel
not specified / unknown, or the location is likewise, or the parsed
estimated loss is 0; its reasoning names exactly the missing items among
incident date, location, cost estimate, joined in that fixed order. -/
theorem collect_missing_info_rule (d : StrDict) :
    (generate_recommendations d).filter
        (fun r => r.action == "Collect Missing Information") =
      if missingSpec d = [] then []
      else [⟨"Collect Missing Information", "High", "Documentation", "‚ö†Ô∏è",
            "Critical fields missing: " ++ String.intercalate ", " (missingSpec d)
              ++ ". Required for processing."⟩] := by
  rw [gen_filter_collect, missingSpec_eq]
  cases hm : missingSpec d <;> simp [rule7Block, hm]

theorem recActions_append (x y : List Recommendation) :
    recActions (x ++ y) = recActions x ++ recActions y := List.map_append _ x y

theorem recActions_rule1 (c : String) :
    recActions (rule1Block c) =
      if c = "low" then ["Request Additional Documentation", "Contact Customer for Details"]
      else [] := by
  unfold recActions rule1Block
  split_ifs <;> rfl

theorem recActions_sev (s c : String) (q : ℚ) :
    recActions (sevBranchBlock s c q) =
      if s = "low" ∧ c = "high" ∧ q < 10000 then
        ["Fast-track Approval", "Simple Phone Verification"]
      else if s = "medium" then
        ["Standard Review Process", "Request Photos/Documentation",
         "Schedule Assessment Within 5 Days"]
      else if s = "high" ∨ s = "critical" then
        ["Detailed Investigation Required", "Assign Senior Adjuster",
         "Schedule On-site Inspection"]
      else [] := by
  unfold recActions sevBranchBlock
  split_ifs <;> rfl

theorem recActions_rule5 (q : ℚ) :
    recActions (rule5Block q) =
      if (50000 : ℚ) < q then
        ["Supervisor Approval Required", "Request Independent Assessment"]
      else [] := by
  unfold recActions rule5Block
  split_ifs <;> rfl

theorem recActions_rule6 (lt : String) :
    recActions (rule6Block lt) =
      (if strInStr "theft" lt then ["Verify Police Report"] else []) ++
      (if strInStr "fire" lt then ["Request Fire Department Report"] else []) ++
      (if strInStr "flood" lt || strInStr "water" lt then ["Verify Weather Records"] else []) ++
      (if strInStr "accident" lt || strInStr "collision" lt then ["Request Accident Report"]
       else []) := by
  unfold recActions rule6Block
  simp only [List.map_append]
  split_ifs <;> rfl

theorem recActions_rule7 (m : List String) :
    recActions (rule7Block m) =
      if m.isEmpty then [] else ["Collect Missing Information"] := by
  unfold recActions rule7Block
  split_ifs <;> rfl

theorem recActions_rule8 (i : String) :
    recActions (rule8Block i) =
      if strInStr "today" (pyLower i) || strInStr "yesterday" (pyLower i) then
        ["Priority Processing"]
      else [] := by
  unfold recActions rule8Block
  split_ifs <;> rfl

theorem mem_ite_list {α : Type} (a : α) (c : Prop) [Decidable c] (L M : List α) :
    (a ∈ if c then L else M) ↔ (c ∧ a ∈ L) ∨ (¬ c ∧ a ∈ M) := by
  split_ifs with h <;> simp [h]

theorem mem_gen_iff_core (d : StrDict) (a : String)
    (h : a ≠ "Standard Claim Processing") :
    a ∈ recActions (generate_recommendations d) ↔ a ∈ recActions (coreRecs d) := by
  unfold generate_recommendations
  split
  next hE =>
    rw [List.isEmpty_iff] at hE
    simp [hE, recActions, stdBlock, h]
  next hE => exact Iff.rfl

theorem fast_track_iff (d : StrDict) :
    "Fast-track Approval" ∈ recActions (generate_recommendations d) ↔
      sevOf d = "low" ∧ confOf d = "high" ∧ lossOf d < 10000 := by
  rw [mem_gen_iff_core d _ (by decide)]
  unfold coreRecs
  simp only [recActions_append, List.mem_append, recActions_rule1, recActions_sev,
    recActions_rule5, recActions_rule6, recActions_rule7, recActions_rule8, mem_ite_list]
  simp +decide

theorem std_review_iff (d : StrDict) :
    "Standard Review Process" ∈ recActions (generate_recommendations d) ↔
      sevOf d = "medium" := by
  rw [mem_gen_iff_core d _ (by decide)]
  unfold coreRecs
  simp only [recActions_append, List.mem_append, recActions_rule1, recActions_sev,
    recActions_rule5, recActions_rule6, recActions_rule7, recActions_rule8, mem_ite_list]
  simp +decide
  have hml : sevOf d = "medium" → ¬ sevOf d = "low" := by
    intro hm hc
    rw [hm] at hc
    exact absurd hc (by decide)
  have hlt : ¬ lossOf d < 10000 ↔ 10000 ≤ lossOf d := not_lt
  tauto

theorem detailed_inv_iff (d : StrDict) :
    "Detailed Investigation Required" ∈ recActions (generate_recommendations d) ↔
      (sevOf d = "high" ∨ sevOf d = "critical") := by
  rw [mem_gen_iff_core d _ (by decide)]
  unfold coreRecs
  simp only [recActions_append, List.mem_append, recActions_rule1, recActions_sev,
    recActions_rule5, recActions_rule6, recActions_rule7, recActions_rule8, mem_ite_list]
  simp +decide
  have h1 : sevOf d = "high" → ¬ sevOf d = "low" := by
    intro h hc
    rw [h] at hc
    exact absurd hc (by decide)
  have h2 : sevOf d = "critical" → ¬ sevOf d = "low" := by
    intro h hc
    rw [h] at hc
    exact absurd hc (by decide)
  have h3 : sevOf d = "high" → ¬ sevOf d = "medium" := by
    intro h hc
    rw [h] at hc
    exact absurd hc (by decide)
  have h4 : sevOf d = "critical" → ¬ sevOf d = "medium" := by
    intro h hc
    rw [h] at hc
    exact absurd hc (by decide)
  have hlt : ¬ lossOf d < 10000 ↔ 10000 ≤ lossOf d := not_lt
  tauto

theorem supervisor_iff (d : StrDict) :
    "Supervisor Approval Required" ∈ recActions (generate_recommendations d) ↔
      (50000 : ℚ) < lossOf d := by
  rw [mem_gen_iff_core d _ (by decide)]
  unfold coreRecs
  simp only [recActions_append, List.mem_append, recActions_rule1, recActions_sev,
    recActions_rule5, recActions_rule6, recActions_rule7, recActions_rule8, mem_ite_list]
  simp +decide

theorem independent_iff (d : StrDict) :
    "Request Independent Assessment" ∈ recActions (generate_recommendations d) ↔
      (50000 : ℚ) < lossOf d := by
  rw [mem_gen_iff_core d _ (by decide)]
  unfold coreRecs
  simp only [recActions_append, List.mem_append, recActions_rule1, recActions_sev,
    recActions_rule5, recActions_rule6, recActions_rule7, recActions_rule8, mem_ite_list]
  simp +decide

/-- Claim C3, amended: the three severity branches of
`generate_recommendations` are mutually exclusive — at most one of the
fast-track branch (severity low AND confidence high AND parsed loss below
10000), the medium-severity branch, and the high/critical-severity branch
appends its recommendations; if severity is low but confidence is not high
or the parsed loss is at least 10000, no severity branch fires; the
high-value rule fires independently — it appends Supervisor Approval
Required and Request Independent Assessment exactly when the parsed loss
exceeds 50000, whatever the severity — and it can co-fire with the medium
and with the high/critical severity branches.  (The original claim also
said it can co-fire with the fast-track branch, which is impossible: the
fast-track branch requires a parsed loss below 10000.) -/
theorem severity_branch_structure :
    (∀ d : StrDict,
        ("Fast-track Approval" ∈ recActions (generate_recommendations d) ↔
          sevOf d = "low" ∧ confOf d = "high" ∧ lossOf d < 10000))
    ∧ (∀ d : StrDict,
        ("Standard Review Process" ∈ recActions (generate_recommendations d) ↔
          sevOf d = "medium"))
    ∧ (∀ d : StrDict,
        ("Detailed Investigation Required" ∈ recActions (generate_recommendations d) ↔
          (sevOf d = "high" ∨ sevOf d = "critical")))
    ∧ (∀ d : StrDict,
        ¬ ("Fast-track Approval" ∈ recActions (generate_recommendations d)
            ∧ "Standard Review Process" ∈ recActions (generate_recommendations d))
        ∧ ¬ ("Fast-track Approval" ∈ recActions (generate_recommendations d)
            ∧ "Detailed Investigation Required" ∈ recActions (generate_recommendations d))
        ∧ ¬ ("Standard Review Process" ∈ recActions (generate_recommendations d)
            ∧ "Detailed Investigation Required" ∈ recActions (generate_recommendations d)))
    ∧ (∀ d : StrDict, sevOf d = "low" → (¬ confOf d = "high" ∨ 10000 ≤ lossOf d) →
        sevBranchBlock (sevOf d) (confOf d) (lossOf d) = [])
    ∧ (∀ d : StrDict,
        ("Supervisor Approval Required" ∈ recActions (generate_recommendations d) ↔
          (50000 : ℚ) < lossOf d))
    ∧ (∀ d : StrDict,
        ("Request Independent Assessment" ∈ recActions (generate_recommendations d) ↔
          (50000 : ℚ) < lossOf d))
    ∧ (∃ d : StrDict,
        "Standard Review Process" ∈ recActions (generate_recommendations d)
        ∧ "Supervisor Approval Required" ∈ recActions (generate_recommendations d))
    ∧ (∃ d : StrDict,
        "Detailed Investigation Required" ∈ recActions (generate_recommendations d)
        ∧ "Supervisor Approval Required" ∈ recActions (generate_recommendations d)) := by
  refine ⟨fast_track_iff, std_review_iff, detailed_inv_iff, fun d => ⟨?_, ?_, ?_⟩,
    fun d hlow hrest => ?_, supervisor_iff, independent_iff,
    ⟨[("severity", "medium"), ("estimated_loss", "$60,000")], by decide, by decide⟩,
    ⟨[("severity", "critical"), ("estimated_loss", "$200,000")], by decide, by decide⟩⟩
  · rintro ⟨hf, hs⟩
    rw [fast_track_iff] at hf
    rw [std_review_iff] at hs
    rw [hf.1] at hs
    exact absurd hs (by decide)
  · rintro ⟨hf, hs⟩
    rw [fast_track_iff] at hf
    rw [detailed_inv_iff] at hs
    rcases hs with hs | hs <;> rw [hf.1] at hs <;> exact absurd hs (by decide)
  · rintro ⟨hf, hs⟩
    rw [std_review_iff] at hf
    rw [detailed_inv_iff] at hs
    rcases hs with hs | hs <;> rw [hf] at hs <;> exact absurd hs (by decide)
  · unfold sevBranchBlock
    rw [if_neg, if_neg, if_neg]
    · rintro (h | h) <;> rw [hlow] at h <;> exact absurd h (by decide)
    · intro h
      rw [hlow] at h
      exact absurd h (by decide)
    · rintro ⟨-, h2, h3⟩
      rcases hrest with hc | hge
      · exact hc h2
      · exact absurd h3 (not_lt.2 hge)

/-- Counterexample to claim C3 as stated: the high-value rule cannot co-fire
with the fast-track severity branch on any input, because the fast-track
branch requires a parsed estimated loss below 10000 while the high-value
rule requires one above 50000. -/
theorem fast_track_high_value_exclusive :
    ¬ ∃ d : StrDict,
        "Fast-track Approval" ∈ recActions (generate_recommendations d)
        ∧ "Supervisor Approval Required" ∈ recActions (generate_recommendations d) := by
  rintro ⟨d, hf, hs⟩
  rw [fast_track_iff] at hf
  rw [supervisor_iff] at hs
  exact absurd (lt_trans hs hf.2.2) (by norm_num)

/-- Witness for C3: on a mapping with severity low but confidence medium,
no severity branch fires. -/
theorem severity_branch_structure_witness :
    sevBranchBlock (sevOf [("severity", "low"), ("confidence", "medium")])
      (confOf [("severity", "low"), ("confidence", "medium")])
      (lossOf [("severity", "low"), ("confidence", "medium")]) = [] :=
  severity_branch_structure.2.2.2.2.1 _ (by decide) (Or.inl (by decide))

theorem dropWhile_head_false {α : Type} (p : α → Bool) (l : List α) (q : α) (tail : List α)
    (h : l.dropWhile p = q :: tail) : p q = false := by
  induction l with
  | nil => simp at h
  | cons a l ih =>
    rw [List.dropWhile_cons] at h
    split_ifs at h with ha
    · exact ih h
    · injection h with h1 h2
      rw [← h1]
      simpa using ha

theorem kwScanF_no_quote (f : Nat) :
    ∀ l : List Char, (∀ x ∈ l, isQuote x = false) → kwScanF f l = [] := by
  induction f with
  | zero => intro l _; rfl
  | succ f ih =>
    intro l h
    cases l with
    | nil => rfl
    | cons c rest =>
      have hc : isQuote c = false := h c (by simp)
      simp only [kwScanF, hc, Bool.false_eq_true, if_false]
      exact ih rest fun x hx => h x (by simp [hx])

theorem kwSpec_some (l : List Char) : ∀ acc : List Char,
    kwSpec (some acc) l =
      match l.dropWhile (fun x => !(isQuote x)) with
      | [] => []
      | _ :: tail =>
        if (acc ++ l.takeWhile (fun x => !(isQuote x))).isEmpty then kwSpec (some []) tail
        else (acc ++ l.takeWhile (fun x => !(isQuote x))) :: kwSpec none tail := by
  induction l with
  | nil => intro acc; rfl
  | cons c rest ih =>
    intro acc
    by_cases hq : isQuote c
    · simp only [kwSpec, hq, if_true, List.takeWhile_cons, List.dropWhile_cons,
        Bool.not_eq_true', hq, Bool.not_true, Bool.false_eq_true, if_false,
        List.append_nil]
    · have hq' : (!(isQuote c)) = true := by simp [hq]
      simp only [kwSpec, hq, Bool.false_eq_true, if_false, List.takeWhile_cons,
        List.dropWhile_cons, hq', if_true]
      rw [ih (acc ++ [c])]
      cases rest.dropWhile (fun x => !(isQuote x)) with
      | nil => rfl
      | cons q tail =>
        simp [List.append_assoc]

theorem kwScan_eq_spec (f : Nat) :
    ∀ l : List Char, l.length < f → kwScanF f l = kwSpec none l := by
  induction f with
  | zero => intro l h; omega
  | succ f ih =>
    intro l h
    cases l with
    | nil => rfl
    | cons c rest =>
      have hlen : rest.length < f := by
        simp only [List.length_cons] at h
        omega
      by_cases hq : isQuote c
      · have hsplit := List.takeWhile_append_dropWhile
          (p := fun x => !(isQuote x)) (l := rest)
        simp only [kwScanF, hq, if_true]
        have hspec : kwSpec none (c :: rest) = kwSpec (some []) rest := by
          simp [kwSpec, hq]
        rw [hspec, kwSpec_some rest []]
        cases hr : rest.dropWhile (fun x => !(isQuote x)) with
        | nil =>
          have hall : ∀ x ∈ rest, isQuote x = false := by
            have := List.dropWhile_eq_nil_iff.1 hr
            intro x hx
            simpa using this x hx
          exact kwScanF_no_quote f rest hall
        | cons q tail =>
          have htl : tail.length < f := by
            have : rest.length =
                (rest.takeWhile (fun x => !(isQuote x))).length +
                (rest.dropWhile (fun x => !(isQuote x))).length := by
              conv_lhs => rw [← hsplit]
              rw [List.length_append]
            rw [hr] at this
            simp only [List.length_cons] at this
            omega
          dsimp only [List.nil_append]
          by_cases he : (rest.takeWhile (fun x => !(isQuote x))).isEmpty
          · have htw : rest.takeWhile (fun x => !(isQuote x)) = [] :=
              List.isEmpty_iff.1 he
            have hrest : rest = q :: tail := by
              conv_lhs => rw [← hsplit]
              rw [htw, hr, List.nil_append]
            have hqq : isQuote q = true := by
              have := dropWhile_head_false (fun x => !(isQuote x)) rest q tail hr
              simpa using this
            rw [htw]
            simp only [List.isEmpty_nil, if_true]
            rw [ih rest hlen, hrest]
            simp [kwSpec, hqq]
          · have hee : (rest.takeWhile (fun x => !(isQuote x))).isEmpty = false := by
              cases hx : rest.takeWhile (fun x => !(isQuote x)) with
              | nil => rw [hx] at he; simp at he
              | cons a b => rfl
            simp only [hee, Bool.false_eq_true, if_false]
            rw [ih tail htl]
      · simp only [kwScanF, hq, Bool.false_eq_true, if_false]
        have hspec : kwSpec none (c :: rest) = kwSpec none rest := by
          simp [kwSpec, hq]
        rw [hspec]
        exact ih rest hlen

/-- Claim C8: `extract_keywords_from_explanation` returns exactly the
substrings enclosed between quote characters, scanning left to right with a
quote character immediately closing the current span (non-greedy,
non-nested), in order of appearance with duplicates retained — stated as
equivalence with the one-pass state machine `kwSpec` that words the claim —
and on the concrete explanation of the claim it returns
`["Fire", "smoke damage"]` in that order. -/
theorem extract_keywords_spec :
    (∀ s : String,
        extract_keywords_from_explanation s =
          (kwSpec none s.data).map fun l => (⟨l⟩ : String))
    ∧ extract_keywords_from_explanation
        ("Classified as " ++ squoteStr ++ "Fire" ++ squoteStr ++ " due to "
          ++ squoteStr ++ "smoke damage" ++ squoteStr) = ["Fire", "smoke damage"] := by
  refine ⟨fun s => ?_, by decide⟩
  unfold extract_keywords_from_explanation
  rw [kwScan_eq_spec (s.data.length + 1) s.data (by omega)]

theorem filter_orderedInsert (n : Nat) (a : String) (l : List String) :
    (List.orderedInsert lenGE a l).filter (fun s => s.length == n) =
      if a.length = n then a :: l.filter (fun s => s.length == n)
      else l.filter (fun s => s.length == n) := by
  induction l with
  | nil =>
    by_cases h : a.length = n <;> simp [List.orderedInsert, h]
  | cons b bs ih =>
    rw [List.orderedInsert]
    by_cases hr : lenGE a b
    · rw [if_pos hr]
      by_cases h : a.length = n <;> simp [List.filter_cons, h]
    · rw [if_neg hr]
      by_cases h : a.length = n
      · have hlt : a.length < b.length := by
          simp only [lenGE, not_le] at hr
          exact hr
        have hb : (b.length == n) = false := by
          rw [h] at hlt
          simp [Nat.ne_of_gt hlt]
        simp [List.filter_cons, hb, ih, h]
      · simp [List.filter_cons, ih, h]

theorem filter_insertionSort (n : Nat) (l : List String) :
    (List.insertionSort lenGE l).filter (fun s => s.length == n) =
      l.filter (fun s => s.length == n) := by
  induction l with
  | nil => rfl
  | cons a l ih =>
    rw [List.insertionSort, filter_orderedInsert, ih]
    by_cases h : a.length = n <;> simp [List.filter_cons, h]

theorem ciPrefix_isPrefix (kw l : List Char) (h : ciPrefix kw l = true) :
    (kw.map Char.toLower).isPrefixOf (l.map Char.toLower) = true := by
  unfold ciPrefix at h
  rw [beq_iff_eq] at h
  rw [List.isPrefixOf_iff_prefix, List.prefix_iff_eq_take]
  rw [← h]
  rw [List.length_map, ← List.map_take]
  congr 1
  have hle : kw.length ≤ l.length := by
    have := congrArg List.length h
    simp only [List.length_map, List.length_take] at this
    omega
  rw [List.length_take, Nat.min_eq_left hle]

theorem replOne_no_match (f : Nat) : ∀ t kw : List Char,
    t.length < f →
    listHasInfix (kw.map Char.toLower) (t.map Char.toLower) = false →
    replOne f t kw = t := by
  induction f with
  | zero => intro t kw h _; omega
  | succ f ih =>
    intro t kw hlen hno
    cases t with
    | nil => rfl
    | cons c rest =>
      rw [List.map_cons, listHasInfix, Bool.or_eq_false_iff] at hno
      have hci : ciPrefix kw (c :: rest) = false := by
        cases hx : ciPrefix kw (c :: rest) with
        | false => rfl
        | true =>
          have := ciPrefix_isPrefix kw (c :: rest) hx
          rw [List.map_cons] at this
          rw [this] at hno
          exact absurd hno.1 (by simp)
      simp only [replOne, hci, Bool.false_eq_true, if_false]
      rw [ih rest kw (by simpa using Nat.lt_of_succ_lt_succ (by simpa using hlen)) hno.2]

set_option maxRecDepth 8192

/-- Claim C9: `highlight_keywords_in_text` processes the keywords sorted by
descending character length with a stable sort (the sorted list is ordered
by descending length, is a permutation of the input, and keeps equal-length
keywords in their original relative order), wraps every case-insensitive
occurrence with the marker span while keeping the original casing of the
matched substring (shown on the concrete FIRE examples, including all three
occurrences of differently cased fire), leaves a text without any
case-insensitive occurrence of the keyword unchanged, and returns the
original text unmodified for the empty keyword list. -/
theorem highlight_keywords_spec :
    (∀ ks : List String, List.Sorted lenGE (List.insertionSort lenGE ks))
    ∧ (∀ ks : List String, List.Perm (List.insertionSort lenGE ks) ks)
    ∧ (∀ (ks : List String) (n : Nat),
        (List.insertionSort lenGE ks).filter (fun s => s.length == n) =
          ks.filter (fun s => s.length == n))
    ∧ (∀ t : String, highlight_keywords_in_text t [] = t)
    ∧ (∀ t kw : String, kw.data ≠ [] →
        listHasInfix (kw.data.map Char.toLower) (t.data.map Char.toLower) = false →
        highlight_keywords_in_text t [kw] = t)
    ∧ highlight_keywords_in_text "customer reported FIRE damage" ["fire"] =
        "customer reported " ++ wrapSpan "FIRE" ++ " damage"
    ∧ highlight_keywords_in_text "Fire fire FIRE" ["fire"] =
        wrapSpan "Fire" ++ " " ++ wrapSpan "fire" ++ " " ++ wrapSpan "FIRE" := by
  refine ⟨fun ks => List.sorted_insertionSort lenGE ks,
    fun ks => List.perm_insertionSort lenGE ks,
    fun ks n => filter_insertionSort n ks,
    fun t => rfl, fun t kw hk hno => ?_, rfl, rfl⟩
  show (⟨replaceKeyword t.data kw.data⟩ : String) = t
  unfold replaceKeyword
  rw [if_neg (by simpa [List.isEmpty_iff] using hk)]
  rw [replOne_no_match (t.data.length + 1) t.data kw.data (by omega) hno]

/-- Witness for C9 at concrete inputs: a keyword with no case-insensitive
occurrence leaves the text unchanged. -/
theorem highlight_keywords_spec_witness :
    highlight_keywords_in_text "abc" ["xy"] = "abc" :=
  highlight_keywords_spec.2.2.2.2.1 "abc" "xy" (by decide) (by decide)

theorem tokEdge_not_nl (c : Char) (h : tokEdge c) : c ≠ '\n' := by
  intro hc
  rw [hc] at h
  exact absurd h.1 (by decide)

theorem jsonWs_isPyWs (c : Char) (h : isJsonWs c = true) : isPyWs c = true := by
  simp only [isJsonWs, Bool.or_eq_true, decide_eq_true_eq] at h
  rcases h with ((h | h) | h) | h <;> simp [isPyWs, h]

theorem jsonWs_not_btick (c : Char) (h : isJsonWs c = true) : c ≠ btick := by
  intro hc
  rw [hc] at h
  exact absurd h (by decide)

theorem pyWs_not_btick (c : Char) (h : isPyWs c = true) : c ≠ btick := by
  intro hc
  rw [hc] at h
  exact absurd h (by decide)

theorem adjOK_of_left (a b : Char) (h1 : a ≠ btick) (h2 : a ≠ '\n') : adjOK a b :=
  ⟨fun hp => h2 hp.1, fun hp => h1 hp.1⟩

theorem adjOK_of_right (a b : Char) (h1 : b ≠ btick) (h2 : b ≠ '\n') : adjOK a b :=
  ⟨fun hp => h1 hp.2, fun hp => h2 hp.2⟩

theorem adjOK_of_no_btick (a b : Char) (h1 : a ≠ btick) (h2 : b ≠ btick) : adjOK a b :=
  ⟨fun hp => h2 hp.2, fun hp => h1 hp.1⟩

theorem chain'_of_all {P : Char → Prop} (hP : ∀ a b, P a → P b → adjOK a b) :
    ∀ l : List Char, (∀ c ∈ l, P c) → List.Chain' adjOK l := by
  intro l
  induction l with
  | nil => intro _; exact List.chain'_nil
  | cons a t ih =>
    intro h
    cases t with
    | nil => exact List.chain'_singleton a
    | cons b t2 =>
      rw [List.chain'_cons]
      exact ⟨hP a b (h a (by simp)) (h b (by simp)),
        ih fun c hc => h c (by simp [hc])⟩

theorem chain'_no_btick (l : List Char) (h : ∀ c ∈ l, c ≠ btick) :
    List.Chain' adjOK l :=
  chain'_of_all (fun a b ha hb => adjOK_of_no_btick a b ha hb) l h

theorem chain'_no_nl (l : List Char) (h : ∀ c ∈ l, c ≠ '\n') :
    List.Chain' adjOK l :=
  chain'_of_all (fun _ _ ha hb => ⟨fun hp => ha hp.1, fun hp => hb hp.2⟩) l h

theorem chain'_pair {R : Char → Char → Prop} :
    ∀ (p : List Char) (l : List Char) (a b : Char) (q : List Char),
      List.Chain' R l → l = p ++ a :: b :: q → R a b := by
  intro p
  induction p with
  | nil =>
    intro l a b q hch hl
    rw [hl] at hch
    exact (List.chain'_cons.1 hch).1
  | cons x p ih =>
    intro l a b q hch hl
    rw [hl] at hch
    have := List.Chain'.tail hch
    simp only [List.tail_cons] at this
    exact ih (p ++ a :: b :: q) a b q this rfl

theorem goodTok_single (c : Char) (hc : tokEdge c) : GoodTok [c] := by
  refine ⟨by simp, ?_, ?_, List.chain'_singleton c⟩
  · intro h hh
    simp only [List.head?_cons, Option.some.injEq] at hh
    rw [← hh]
    exact hc
  · intro x hx
    simp only [List.getLast?_singleton, Option.some.injEq] at hx
    rw [← hx]
    exact hc

theorem goodTok_of_tame (C : List Char) (hne : C ≠ [])
    (h : ∀ c ∈ C, tokEdge c) : GoodTok C := by
  refine ⟨hne, ?_, ?_, ?_⟩
  · intro x hx
    exact h x (List.mem_of_mem_head? hx)
  · intro x hx
    exact h x (List.mem_of_mem_getLast? hx)
  · exact chain'_no_btick C fun c hc => (h c hc).2

theorem goodTok_of_no_nl (C : List Char) (hne : C ≠ [])
    (hh : ∀ h, C.head? = some h → tokEdge h)
    (hl : ∀ x, C.getLast? = some x → tokEdge x)
    (hall : ∀ c ∈ C, c ≠ '\n') : GoodTok C :=
  ⟨hne, hh, hl, chain'_no_nl C hall⟩

theorem head?_of_goodTok_ne (C : List Char) (h : GoodTok C) :
    ∃ x, C.head? = some x ∧ tokEdge x := by
  cases C with
  | nil => exact absurd rfl h.1
  | cons a t => exact ⟨a, rfl, h.2.1 a rfl⟩

theorem getLast?_of_goodTok_ne (C : List Char) (h : GoodTok C) :
    ∃ x, C.getLast? = some x ∧ tokEdge x := by
  cases hx : C.getLast? with
  | none =>
    rw [List.getLast?_eq_none_iff] at hx
    exact absurd hx h.1
  | some x => exact ⟨x, rfl, h.2.2.1 x hx⟩

theorem goodTok_glue (Cv M Ce : List Char) (hCv : GoodTok Cv)
    (hM : ∀ c ∈ M, c ≠ btick) (hCe : GoodTok Ce) :
    GoodTok (Cv ++ M ++ Ce) := by
  obtain ⟨hv1, hv2, hv3, hv4⟩ := hCv
  obtain ⟨he1, he2, he3, he4⟩ := hCe
  refine ⟨by simp [hv1], ?_, ?_, ?_⟩
  · intro x hx
    cases Cv with
    | nil => exact absurd rfl hv1
    | cons a t =>
      simp only [List.cons_append, List.head?_cons, Option.some.injEq] at hx
      exact hx ▸ hv2 a rfl
  · intro x hx
    rw [List.append_assoc, List.getLast?_append_of_ne_nil _ (by simp [he1]),
      List.getLast?_append_of_ne_nil _ he1] at hx
    exact he3 x hx
  · rw [List.append_assoc]
    apply List.chain'_append.2
    refine ⟨hv4, ?_, ?_⟩
    · apply List.chain'_append.2
      refine ⟨chain'_no_btick M hM, he4, ?_⟩
      intro x hx y hy
      exact adjOK_of_right x y ((he2 y hy).2) (tokEdge_not_nl y (he2 y hy))
    · intro x hx y hy
      have hte := hv3 x hx
      exact adjOK_of_left x y hte.2 (tokEdge_not_nl x hte)

theorem goodCont_of (M C : List Char) (hM : ∀ c ∈ M, isJsonWs c = true)
    (hC : GoodTok C) : GoodCont (M ++ C) := by
  obtain ⟨h1, h2, h3, h4⟩ := hC
  refine ⟨by simp [h1], ?_, ?_⟩
  · intro x hx
    rw [List.getLast?_append_of_ne_nil _ h1] at hx
    exact h3 x hx
  · apply List.chain'_append.2
    refine ⟨chain'_no_btick M (fun c hc => jsonWs_not_btick c (hM c hc)), h4, ?_⟩
    intro x hx y hy
    exact adjOK_of_right x y ((h2 y hy).2) (tokEdge_not_nl y (h2 y hy))

theorem goodTok_cons_cont (c : Char) (hc : tokEdge c) (C : List Char)
    (h : GoodCont C) : GoodTok (c :: C) := by
  obtain ⟨h1, h2, h3⟩ := h
  refine ⟨by simp, ?_, ?_, ?_⟩
  · intro x hx
    simp only [List.head?_cons, Option.some.injEq] at hx
    exact hx ▸ hc
  · intro x hx
    cases C with
    | nil => exact absurd rfl h1
    | cons b t =>
      rw [List.getLast?_cons_cons] at hx
      exact h2 x hx
  · rw [List.chain'_cons']
    refine ⟨?_, h3⟩
    intro y _
    exact adjOK_of_left c y hc.2 (tokEdge_not_nl c hc)

theorem goodTok_string (B : List Char) (hB : ∀ c ∈ B, c ≠ '\n') :
    GoodTok (dquote :: B ++ [dquote]) := by
  apply goodTok_of_no_nl
  · simp
  · intro h hh
    simp only [List.cons_append, List.head?_cons, Option.some.injEq] at hh
    rw [← hh]
    exact ⟨by decide, by decide⟩
  · intro x hx
    rw [List.getLast?_concat] at hx
    injection hx with hx
    rw [← hx]
    exact ⟨by decide, by decide⟩
  · intro c hc
    have hc2 : c = dquote ∨ c ∈ B ∨ c = dquote := by
      simpa using hc
    rcases hc2 with hc2 | hc2 | hc2
    · rw [hc2]; decide
    · exact hB c hc2
    · rw [hc2]; decide

theorem digit_tokEdge (c : Char) (h : isDigitCh c = true) : tokEdge c := by
  simp only [isDigitCh, Bool.and_eq_true, decide_eq_true_eq] at h
  constructor
  · by_contra hw
    rw [Bool.not_eq_false] at hw
    simp only [isPyWs, Bool.or_eq_true, decide_eq_true_eq] at hw
    rcases hw with ((((hw | hw) | hw) | hw) | hw) | hw <;>
      rw [hw] at h <;> exact absurd h.1 (by decide)
  · intro hb
    rw [hb] at h
    exact absurd h.2 (by decide)

theorem takeWhile_digits_tokEdge (l : List Char) :
    ∀ c ∈ l.takeWhile isDigitCh, tokEdge c :=
  fun c hc => digit_tokEdge c (List.mem_takeWhile_imp hc)

theorem numFrac_split (l2 fr l3) (h : numFrac l2 = (fr, l3)) :
    ∃ F, l2 = F ++ l3 ∧ ∀ c ∈ F, tokEdge c := by
  unfold numFrac at h
  split at h
  next d r2 =>
    split_ifs at h with hd hfs
    · injection h with h1 h2
      exact ⟨[], by rw [← h2]; rfl, by simp⟩
    · injection h with h1 h2
      refine ⟨d :: r2.takeWhile isDigitCh, ?_, ?_⟩
      · rw [← h2, List.cons_append]
        congr 1
        exact (List.takeWhile_append_dropWhile (p := isDigitCh) (l := r2)).symm
      · intro c hc
        rcases List.mem_cons.1 hc with hc | hc
        · rw [hc, hd]; exact ⟨by decide, by decide⟩
        · exact takeWhile_digits_tokEdge r2 c hc
    · injection h with h1 h2
      exact ⟨[], by rw [← h2]; rfl, by simp⟩
  next =>
    injection h with h1 h2
    exact ⟨[], by rw [← h2]; rfl, by simp⟩

theorem numExp_split (l3 ex l4) (h : numExp l3 = (ex, l4)) :
    ∃ E, l3 = E ++ l4 ∧ ∀ c ∈ E, tokEdge c := by
  unfold numExp at h
  split at h
  next d r2 =>
    split_ifs at h with hd
    · rcases hs : (match r2 with
        | s :: r4 =>
          if s = '-' then (true, r4)
          else if s = '+' then (false, r4)
          else (false, r2)
        | [] => ((false : Bool), r2)) with ⟨eneg, r3⟩
      rw [hs] at h
      dsimp only at h
      have hr3 : ∃ S, r2 = S ++ r3 ∧ ∀ c ∈ S, tokEdge c := by
        clear h
        split at hs
        next s r4 =>
          split_ifs at hs with h1 h2
          · injection hs with hs1 hs2
            exact ⟨[s], by rw [← hs2, h1]; rfl,
              by intro c hc; simp at hc; rw [hc, h1]; exact ⟨by decide, by decide⟩⟩
          · injection hs with hs1 hs2
            exact ⟨[s], by rw [← hs2, h2]; rfl,
              by intro c hc; simp at hc; rw [hc, h2]; exact ⟨by decide, by decide⟩⟩
          · injection hs with hs1 hs2
            exact ⟨[], by rw [← hs2]; rfl, by simp⟩
        next =>
          injection hs with hs1 hs2
          exact ⟨[], by rw [← hs2]; rfl, by simp⟩
      obtain ⟨S, hS, hSt⟩ := hr3
      split_ifs at h with heds
      · injection h with h1 h2
        exact ⟨[], by rw [← h2]; rfl, by simp⟩
      · injection h with h1 h2
        refine ⟨d :: S ++ r3.takeWhile isDigitCh, ?_, ?_⟩
        · rw [← h2, hS]
          conv_lhs =>
            rw [← List.takeWhile_append_dropWhile (p := isDigitCh) (l := r3)]
          simp [List.append_assoc]
        · intro c hc
          rcases List.mem_cons.1 hc with hc | hc
          · have hd' : d = 'e' ∨ d = 'E' := by simpa using hd
            rcases hd' with hd1 | hd1 <;> rw [hc, hd1] <;> exact ⟨by decide, by decide⟩
          · rcases List.mem_append.1 hc with hc | hc
            · exact hSt c hc
            · exact takeWhile_digits_tokEdge r3 c hc
    · injection h with h1 h2
      exact ⟨[], by rw [← h2]; rfl, by simp⟩
  next =>
    injection h with h1 h2
    exact ⟨[], by rw [← h2]; rfl, by simp⟩

theorem tryNumber_split (l : List Char) (n : JNum) (rest : List Char)
    (h : tryNumber l = some (n, rest)) :
    ∃ C, l = C ++ rest ∧ C ≠ [] ∧ ∀ c ∈ C, tokEdge c := by
  unfold tryNumber at h
  rcases hsg : (match l with
    | c :: rest => if c = '-' then ((true : Bool), rest) else (false, l)
    | [] => ((false : Bool), l)) with ⟨neg, l1⟩
  rw [hsg] at h
  dsimp only at h
  have hl1 : ∃ S, l = S ++ l1 ∧ ∀ c ∈ S, tokEdge c := by
    clear h
    split at hsg
    next c r =>
      split_ifs at hsg with hc
      · injection hsg with hs1 hs2
        exact ⟨[c], by rw [← hs2, hc]; rfl,
          by intro x hx; simp at hx; rw [hx, hc]; exact ⟨by decide, by decide⟩⟩
      · injection hsg with hs1 hs2
        exact ⟨[], by rw [← hs2]; rfl, by simp⟩
    next =>
      injection hsg with hs1 hs2
      exact ⟨[], by rw [← hs2]; rfl, by simp⟩
  obtain ⟨S, hS, hSt⟩ := hl1
  match hm : l1 with
  | [] =>
    exact Option.noConfusion
      (show (none : Option (JNum × List Char)) = some (n, rest) from h)
  | c :: r =>
    dsimp only at h
    split_ifs at h with hd hc0
    · rcases hfr : numFrac r with ⟨fr, l3⟩
      rw [hfr] at h
      dsimp only at h
      rcases hex : numExp l3 with ⟨ex, l4⟩
      rw [hex] at h
      dsimp only at h
      injection h with h1
      injection h1 with h1a h1b
      obtain ⟨F, hF, hFt⟩ := numFrac_split _ _ _ hfr
      obtain ⟨E, hE, hEt⟩ := numExp_split _ _ _ hex
      have hct : tokEdge c := by
        rw [hc0]; exact ⟨by decide, by decide⟩
      refine ⟨S ++ c :: F ++ E, ?_, by simp, ?_⟩
      · rw [hS, ← h1b, hF, hE]
        simp [List.append_assoc]
      · intro x hx
        rcases List.mem_append.1 hx with hx | hx
        · rcases List.mem_append.1 hx with hx | hx
          · exact hSt x hx
          · rcases List.mem_cons.1 hx with hx | hx
            · rw [hx]; exact hct
            · exact hFt x hx
        · exact hEt x hx
    · rcases hfr : numFrac (r.dropWhile isDigitCh) with ⟨fr, l3⟩
      rw [hfr] at h
      dsimp only at h
      rcases hex : numExp l3 with ⟨ex, l4⟩
      rw [hex] at h
      dsimp only at h
      injection h with h1
      injection h1 with h1a h1b
      obtain ⟨F, hF, hFt⟩ := numFrac_split _ _ _ hfr
      obtain ⟨E, hE, hEt⟩ := numExp_split _ _ _ hex
      have hct : tokEdge c := by
        have hdig : isDigitCh c = true := by simpa [hc0] using hd
        exact digit_tokEdge c hdig
      refine ⟨S ++ (c :: r.takeWhile isDigitCh) ++ F ++ E, ?_, by simp, ?_⟩
      · rw [hS, ← h1b]
        conv_lhs =>
          rw [← List.takeWhile_append_dropWhile (p := isDigitCh) (l := r)]
        rw [hF, hE]
        simp [List.append_assoc]
      · intro x hx
        rcases List.mem_append.1 hx with hx | hx
        · rcases List.mem_append.1 hx with hx | hx
          · rcases List.mem_append.1 hx with hx | hx
            · exact hSt x hx
            · rcases List.mem_cons.1 hx with hx | hx
              · rw [hx]; exact hct
              · exact takeWhile_digits_tokEdge r x hx
          · exact hFt x hx
        · exact hEt x hx

theorem hexVal_ne_nl (e : Char) (n : Nat) (h : hexVal e = some n) : e ≠ '\n' := by
  intro he
  rw [he] at h
  have h0 : hexVal '\n' = none := by decide
  rw [h0] at h
  exact Option.noConfusion h

theorem escChar_ne_nl (e ch : Char) (h : escChar e = some ch) : e ≠ '\n' := by
  intro he
  rw [he] at h
  have h0 : escChar '\n' = none := by decide
  rw [h0] at h
  exact Option.noConfusion h

theorem hex4_split (l : List Char) (code : Nat) (rest : List Char)
    (h : hex4 l = some (code, rest)) :
    ∃ H, l = H ++ rest ∧ ∀ x ∈ H, x ≠ '\n' := by
  match l with
  | [] => exact Option.noConfusion h
  | [a] => exact Option.noConfusion h
  | [a, b] => exact Option.noConfusion h
  | [a, b, c] => exact Option.noConfusion h
  | a :: b :: c :: d :: t =>
    simp only [hex4] at h
    cases ha : hexVal a with
    | none => rw [ha] at h; exact Option.noConfusion h
    | some x =>
      rw [ha] at h
      cases hb : hexVal b with
      | none => rw [hb] at h; exact Option.noConfusion h
      | some y =>
        rw [hb] at h
        cases hc : hexVal c with
        | none => rw [hc] at h; exact Option.noConfusion h
        | some z =>
          rw [hc] at h
          cases hd : hexVal d with
          | none => rw [hd] at h; exact Option.noConfusion h
          | some w =>
            rw [hd] at h
            dsimp only at h
            injection h with h1
            injection h1 with h1a h1b
            refine ⟨[a, b, c, d], by simp [h1b], ?_⟩
            intro u hu
            rcases (by simpa using hu : u = a ∨ u = b ∨ u = c ∨ u = d)
              with hh | hh | hh | hh
            · exact hh ▸ hexVal_ne_nl a _ ha
            · exact hh ▸ hexVal_ne_nl b _ hb
            · exact hh ▸ hexVal_ne_nl c _ hc
            · exact hh ▸ hexVal_ne_nl d _ hd

theorem strbody_build0 (c : Char) (B rest r : List Char) (hc : c ≠ '\n')
    (hB : rest = B ++ dquote :: r) (hBn : ∀ x ∈ B, x ≠ '\n') :
    ∃ B2, c :: rest = B2 ++ dquote :: r ∧ ∀ x ∈ B2, x ≠ '\n' := by
  refine ⟨c :: B, by simp [hB], ?_⟩
  intro x hx
  rcases (by simpa using hx : x = c ∨ x ∈ B) with hh | hh
  · exact hh ▸ hc
  · exact hBn x hh

theorem strbody_build (c e : Char) (H B rest2 rest3 r : List Char)
    (hc : c ≠ '\n') (he : e ≠ '\n')
    (hH : rest2 = H ++ rest3) (hHn : ∀ x ∈ H, x ≠ '\n')
    (hB : rest3 = B ++ dquote :: r) (hBn : ∀ x ∈ B, x ≠ '\n') :
    ∃ B2, c :: e :: rest2 = B2 ++ dquote :: r ∧ ∀ x ∈ B2, x ≠ '\n' := by
  refine ⟨c :: e :: (H ++ B), by rw [hH, hB]; simp [List.append_assoc], ?_⟩
  intro x hx
  rcases (by simpa using hx : x = c ∨ x = e ∨ x ∈ H ∨ x ∈ B) with hh | hh | hh | hh
  · exact hh ▸ hc
  · exact hh ▸ he
  · exact hHn x hh
  · exact hBn x hh

theorem strbody_build2 (c e b1 b2 : Char) (H H2 B rest2 rest3 rest4 r : List Char)
    (hc : c ≠ '\n') (he : e ≠ '\n') (hb1 : b1 ≠ '\n') (hb2 : b2 ≠ '\n')
    (hH : rest2 = H ++ b1 :: b2 :: rest4) (hHn : ∀ x ∈ H, x ≠ '\n')
    (hH2 : rest4 = H2 ++ rest3) (hH2n : ∀ x ∈ H2, x ≠ '\n')
    (hB : rest3 = B ++ dquote :: r) (hBn : ∀ x ∈ B, x ≠ '\n') :
    ∃ B2, c :: e :: rest2 = B2 ++ dquote :: r ∧ ∀ x ∈ B2, x ≠ '\n' := by
  refine ⟨c :: e :: (H ++ b1 :: b2 :: (H2 ++ B)),
    by rw [hH, hH2, hB]; simp [List.append_assoc], ?_⟩
  intro x hx
  rcases (by simpa using hx :
      x = c ∨ x = e ∨ x ∈ H ∨ x = b1 ∨ x = b2 ∨ x ∈ H2 ∨ x ∈ B)
    with hh | hh | hh | hh | hh | hh | hh
  · exact hh ▸ hc
  · exact hh ▸ he
  · exact hHn x hh
  · exact hh ▸ hb1
  · exact hh ▸ hb2
  · exact hH2n x hh
  · exact hBn x hh

theorem parseStrBody_split : ∀ (f : Nat) (l acc content r : List Char),
    parseStrBody f l acc = .ok (content, r) →
    ∃ B, l = B ++ dquote :: r ∧ ∀ c ∈ B, c ≠ '\n' := by
  intro f
  induction f with
  | zero =>
    intro l acc content r h
    exact Except.noConfusion h
  | succ f ih =>
    intro l acc content r h
    match l with
    | [] => exact Except.noConfusion h
    | c :: rest =>
      simp only [parseStrBody] at h
      split_ifs at h with hdq hbs hctl
      · injection h with h1
        injection h1 with h1a h1b
        exact ⟨[], by simp [hdq, h1b], by simp⟩
      · cases rest with
        | nil => exact Except.noConfusion h
        | cons e rest2 =>
          dsimp only at h
          split_ifs at h with heu
          · cases hh4 : hex4 rest2 with
            | none => rw [hh4] at h; exact Except.noConfusion h
            | some p =>
              obtain ⟨code, rest3⟩ := p
              rw [hh4] at h
              dsimp only at h
              obtain ⟨H, hH, hHn⟩ := hex4_split _ _ _ hh4
              split_ifs at h with hsur
              · cases rest3 with
                | nil =>
                  dsimp only at h
                  obtain ⟨B, hB, hBn⟩ := ih _ _ _ _ h
                  exact strbody_build c e H B rest2 [] r
                    (by rw [hbs]; decide) (by rw [heu]; decide) hH hHn hB hBn
                | cons b1 t3 =>
                  cases t3 with
                  | nil =>
                    dsimp only at h
                    obtain ⟨B, hB, hBn⟩ := ih _ _ _ _ h
                    exact strbody_build c e H B rest2 [b1] r
                      (by rw [hbs]; decide) (by rw [heu]; decide) hH hHn hB hBn
                  | cons b2 rest4 =>
                    dsimp only at h
                    split_ifs at h with hb12
                    · have hb : b1 = '\\' ∧ b2 = 'u' := by simpa using hb12
                      cases hh42 : hex4 rest4 with
                      | none =>
                        rw [hh42] at h
                        dsimp only at h
                        obtain ⟨B, hB, hBn⟩ := ih _ _ _ _ h
                        exact strbody_build c e H B rest2 (b1 :: b2 :: rest4) r
                          (by rw [hbs]; decide) (by rw [heu]; decide) hH hHn hB hBn
                      | some p2 =>
                        obtain ⟨code2, rest5⟩ := p2
                        rw [hh42] at h
                        dsimp only at h
                        obtain ⟨H2, hH2, hH2n⟩ := hex4_split _ _ _ hh42
                        split_ifs at h with hlo
                        · obtain ⟨B, hB, hBn⟩ := ih _ _ _ _ h
                          exact strbody_build2 c e b1 b2 H H2 B rest2 rest5 rest4 r
                            (by rw [hbs]; decide) (by rw [heu]; decide)
                            (by rw [hb.1]; decide) (by rw [hb.2]; decide)
                            hH hHn hH2 hH2n hB hBn
                        · obtain ⟨B, hB, hBn⟩ := ih _ _ _ _ h
                          exact strbody_build c e H B rest2 (b1 :: b2 :: rest4) r
                            (by rw [hbs]; decide) (by rw [heu]; decide) hH hHn hB hBn
                    · obtain ⟨B, hB, hBn⟩ := ih _ _ _ _ h
                      exact strbody_build c e H B rest2 (b1 :: b2 :: rest4) r
                        (by rw [hbs]; decide) (by rw [heu]; decide) hH hHn hB hBn
              · obtain ⟨B, hB, hBn⟩ := ih _ _ _ _ h
                exact strbody_build c e H B rest2 rest3 r
                  (by rw [hbs]; decide) (by rw [heu]; decide) hH hHn hB hBn
          · cases he : escChar e with
            | none => rw [he] at h; exact Except.noConfusion h
            | some ch =>
              rw [he] at h
              dsimp only at h
              obtain ⟨B, hB, hBn⟩ := ih _ _ _ _ h
              exact strbody_build c e [] B rest2 rest2 r
                (by rw [hbs]; decide) (escChar_ne_nl e ch he)
                (by simp) (by simp) hB hBn
      · obtain ⟨B, hB, hBn⟩ := ih _ _ _ _ h
        refine strbody_build0 c B rest r ?_ hB hBn
        intro hce
        rw [hce] at hctl
        exact hctl (by decide)

theorem ws_split (l d : List Char) (h : l.dropWhile isJsonWs = d) :
    l = l.takeWhile isJsonWs ++ d := by
  conv_lhs => rw [← List.takeWhile_append_dropWhile (p := isJsonWs) (l := l)]
  rw [h]

theorem tw_ws_mem (l : List Char) : ∀ c ∈ l.takeWhile isJsonWs, isJsonWs c = true :=
  fun _ hc => List.mem_takeWhile_imp hc

theorem tw_ws_not_btick (l : List Char) : ∀ c ∈ l.takeWhile isJsonWs, c ≠ btick :=
  fun c hc => jsonWs_not_btick c (List.mem_takeWhile_imp hc)

theorem prefix_split (p l : List Char) (h : List.isPrefixOf p l = true) :
    l = p ++ l.drop p.length := by
  have hp : p <+: l := List.isPrefixOf_iff_prefix.1 h
  have ht : p = l.take p.length := List.prefix_iff_eq_take.1 hp
  conv_lhs => rw [← List.take_append_drop p.length l]
  rw [← ht]

theorem val_num_case (c : Char) (rest r : List Char) (nn : JNum)
    (htn : tryNumber (c :: rest) = some (nn, r)) :
    ∃ C, c :: rest = C ++ r ∧ GoodTok C := by
  obtain ⟨Ct, hCt, hCne, hCtok⟩ := tryNumber_split _ _ _ htn
  exact ⟨Ct, hCt, goodTok_of_tame Ct hCne hCtok⟩

theorem val_lit_case (p : List Char) (c : Char) (rest r : List Char)
    (hpre : List.isPrefixOf p (c :: rest) = true)
    (hne : p ≠ []) (htok : ∀ x ∈ p, tokEdge x)
    (hr : (c :: rest).drop p.length = r) :
    ∃ C, c :: rest = C ++ r ∧ GoodTok C := by
  refine ⟨p, ?_, goodTok_of_tame p hne htok⟩
  rw [← hr]
  exact prefix_split _ _ hpre

/-- The consumed text of every successful parse is well-shaped: a value's
text is a `GoodTok`, and the continuation after an opening bracket/brace is
a `GoodCont`. -/
theorem parser_good : ∀ f : Nat,
    (∀ l v r, parseVal f l = .ok (v, r) → ∃ C, l = C ++ r ∧ GoodTok C) ∧
    (∀ l v r, parseArrStart f l = .ok (v, r) → ∃ C, l = C ++ r ∧ GoodCont C) ∧
    (∀ l vs r, parseArrElems f l = .ok (vs, r) → ∃ C, l = C ++ r ∧ GoodTok C) ∧
    (∀ l v r, parseObjStart f l = .ok (v, r) → ∃ C, l = C ++ r ∧ GoodCont C) ∧
    (∀ l ps r, parseObjFields f l = .ok (ps, r) → ∃ C, l = C ++ r ∧ GoodTok C) := by
  intro f
  induction f with
  | zero =>
    exact ⟨fun l v r h => Except.noConfusion h,
      fun l v r h => Except.noConfusion h,
      fun l vs r h => Except.noConfusion h,
      fun l v r h => Except.noConfusion h,
      fun l ps r h => Except.noConfusion h⟩
  | succ f ih =>
    obtain ⟨ihV, ihA, ihE, ihO, ihF⟩ := ih
    refine ⟨?_, ?_, ?_, ?_, ?_⟩
    · intro l v r h
      match l with
      | [] => exact Except.noConfusion h
      | c :: rest =>
        simp only [parseVal] at h
        split_ifs at h with hdq hob har hnull htrue hfalse hnan hinf hninf
        · cases hps : parseStrBody (rest.length + 1) rest [] with
          | error e => rw [hps] at h; exact Except.noConfusion h
          | ok p =>
            obtain ⟨content, r2⟩ := p
            rw [hps] at h
            dsimp only at h
            injection h with h1
            injection h1 with h1a h1b
            obtain ⟨B, hB, hBn⟩ := parseStrBody_split _ _ _ _ _ hps
            refine ⟨dquote :: B ++ [dquote], ?_, goodTok_string B hBn⟩
            rw [hdq, hB, ← h1b]
            simp [List.append_assoc]
        · obtain ⟨C, hC, hG⟩ := ihO rest v r h
          exact ⟨c :: C, by simp [hC],
            goodTok_cons_cont c (by rw [hob]; exact ⟨by decide, by decide⟩) C hG⟩
        · obtain ⟨C, hC, hG⟩ := ihA rest v r h
          exact ⟨c :: C, by simp [hC],
            goodTok_cons_cont c (by rw [har]; exact ⟨by decide, by decide⟩) C hG⟩
        · injection h with h1
          injection h1 with h1a h1b
          exact val_lit_case "null".data c rest r hnull (by decide) (by decide) h1b
        · injection h with h1
          injection h1 with h1a h1b
          exact val_lit_case "true".data c rest r htrue (by decide) (by decide) h1b
        · injection h with h1
          injection h1 with h1a h1b
          exact val_lit_case "false".data c rest r hfalse (by decide) (by decide) h1b
        · cases htn : tryNumber (c :: rest) with
          | some p =>
            obtain ⟨nn, r2⟩ := p
            rw [htn] at h
            dsimp only at h
            injection h with h1
            injection h1 with h1a h1b
            exact h1b ▸ val_num_case c rest r2 nn htn
          | none =>
            rw [htn] at h
            dsimp only at h
            injection h with h1
            injection h1 with h1a h1b
            exact val_lit_case "NaN".data c rest r hnan (by decide) (by decide) h1b
        · cases htn : tryNumber (c :: rest) with
          | some p =>
            obtain ⟨nn, r2⟩ := p
            rw [htn] at h
            dsimp only at h
            injection h with h1
            injection h1 with h1a h1b
            exact h1b ▸ val_num_case c rest r2 nn htn
          | none =>
            rw [htn] at h
            dsimp only at h
            injection h with h1
            injection h1 with h1a h1b
            exact val_lit_case "Infinity".data c rest r hinf (by decide) (by decide) h1b
        · cases htn : tryNumber (c :: rest) with
          | some p =>
            obtain ⟨nn, r2⟩ := p
            rw [htn] at h
            dsimp only at h
            injection h with h1
            injection h1 with h1a h1b
            exact h1b ▸ val_num_case c rest r2 nn htn
          | none =>
            rw [htn] at h
            dsimp only at h
            injection h with h1
            injection h1 with h1a h1b
            exact val_lit_case "-Infinity".data c rest r hninf (by decide) (by decide) h1b
        · cases htn : tryNumber (c :: rest) with
          | some p =>
            obtain ⟨nn, r2⟩ := p
            rw [htn] at h
            dsimp only at h
            injection h with h1
            injection h1 with h1a h1b
            exact h1b ▸ val_num_case c rest r2 nn htn
          | none =>
            rw [htn] at h
            exact Except.noConfusion h
    · intro l v r h
      simp only [parseArrStart] at h
      cases hl1 : l.dropWhile isJsonWs with
      | nil => rw [hl1] at h; exact Except.noConfusion h
      | cons c rest =>
        rw [hl1] at h
        dsimp only at h
        split_ifs at h with hcb
        · injection h with h1
          injection h1 with h1a h1b
          refine ⟨l.takeWhile isJsonWs ++ [']'], ?_, ?_⟩
          · conv_lhs => rw [ws_split l (c :: rest) hl1]
            rw [hcb, ← h1b]
            simp [List.append_assoc]
          · exact goodCont_of _ _ (tw_ws_mem l)
              (goodTok_single _ ⟨by decide, by decide⟩)
        · cases hpe : parseArrElems f (c :: rest) with
          | error e => rw [hpe] at h; exact Except.noConfusion h
          | ok p =>
            obtain ⟨vs, r2⟩ := p
            rw [hpe] at h
            dsimp only at h
            injection h with h1
            injection h1 with h1a h1b
            obtain ⟨C, hC, hG⟩ := ihE _ _ _ hpe
            refine ⟨l.takeWhile isJsonWs ++ C, ?_,
              goodCont_of _ C (tw_ws_mem l) hG⟩
            conv_lhs => rw [ws_split l (c :: rest) hl1]
            rw [hC, ← h1b]
            simp [List.append_assoc]
    · intro l vs r h
      simp only [parseArrElems] at h
      cases hpv : parseVal f l with
      | error e => rw [hpv] at h; exact Except.noConfusion h
      | ok p =>
        obtain ⟨v1, r1⟩ := p
        rw [hpv] at h
        dsimp only at h
        obtain ⟨Cv, hCv, hGv⟩ := ihV _ _ _ hpv
        cases hr2 : r1.dropWhile isJsonWs with
        | nil => rw [hr2] at h; exact Except.noConfusion h
        | cons c2 rest2 =>
          rw [hr2] at h
          dsimp only at h
          split_ifs at h with hcb hcc
          · injection h with h1
            injection h1 with h1a h1b
            refine ⟨Cv ++ r1.takeWhile isJsonWs ++ [']'], ?_, ?_⟩
            · rw [hCv]
              conv_lhs => rw [ws_split r1 (c2 :: rest2) hr2]
              rw [hcb, ← h1b]
              simp [List.append_assoc]
            · exact goodTok_glue Cv _ [']'] hGv (tw_ws_not_btick r1)
                (goodTok_single ']' ⟨by decide, by decide⟩)
          · cases hpe : parseArrElems f (rest2.dropWhile isJsonWs) with
            | error e => rw [hpe] at h; exact Except.noConfusion h
            | ok p2 =>
              obtain ⟨vs2, r3⟩ := p2
              rw [hpe] at h
              dsimp only at h
              injection h with h1
              injection h1 with h1a h1b
              obtain ⟨C2, hC2, hG2⟩ := ihE _ _ _ hpe
              refine ⟨Cv ++ r1.takeWhile isJsonWs ++
                  (',' :: (rest2.takeWhile isJsonWs ++ C2)), ?_, ?_⟩
              · rw [hCv]
                conv_lhs => rw [ws_split r1 (c2 :: rest2) hr2]
                conv_lhs => rw [ws_split rest2 (rest2.dropWhile isJsonWs) rfl]
                rw [hC2, hcc, ← h1b]
                simp [List.append_assoc]
              · refine goodTok_glue Cv _ _ hGv (tw_ws_not_btick r1) ?_
                exact goodTok_cons_cont ',' ⟨by decide, by decide⟩ _
                  (goodCont_of _ C2 (tw_ws_mem rest2) hG2)
    · intro l v r h
      simp only [parseObjStart] at h
      cases hl1 : l.dropWhile isJsonWs with
      | nil => rw [hl1] at h; exact Except.noConfusion h
      | cons c rest =>
        rw [hl1] at h
        dsimp only at h
        split_ifs at h with hcb hdq
        · injection h with h1
          injection h1 with h1a h1b
          refine ⟨l.takeWhile isJsonWs ++ [Char.ofNat 125], ?_, ?_⟩
          · conv_lhs => rw [ws_split l (c :: rest) hl1]
            rw [hcb, ← h1b]
            simp [List.append_assoc]
          · exact goodCont_of _ _ (tw_ws_mem l)
              (goodTok_single _ ⟨by decide, by decide⟩)
        · cases hpf : parseObjFields f (c :: rest) with
          | error e => rw [hpf] at h; exact Except.noConfusion h
          | ok p =>
            obtain ⟨ps, r2⟩ := p
            rw [hpf] at h
            dsimp only at h
            injection h with h1
            injection h1 with h1a h1b
            obtain ⟨C, hC, hG⟩ := ihF _ _ _ hpf
            refine ⟨l.takeWhile isJsonWs ++ C, ?_,
              goodCont_of _ C (tw_ws_mem l) hG⟩
            conv_lhs => rw [ws_split l (c :: rest) hl1]
            rw [hC, ← h1b]
            simp [List.append_assoc]
    · intro l ps r h
      match l with
      | [] => exact Except.noConfusion h
      | c :: rest =>
        simp only [parseObjFields] at h
        split_ifs at h with hdq
        cases hps : parseStrBody (rest.length + 1) rest [] with
        | error e => rw [hps] at h; exact Except.noConfusion h
        | ok p =>
          obtain ⟨key, r1⟩ := p
          rw [hps] at h
          dsimp only at h
          obtain ⟨B, hB, hBn⟩ := parseStrBody_split _ _ _ _ _ hps
          cases hr2 : r1.dropWhile isJsonWs with
          | nil => rw [hr2] at h; exact Except.noConfusion h
          | cons c2 r3 =>
            rw [hr2] at h
            dsimp only at h
            split_ifs at h with hcolon
            cases hpv : parseVal f (r3.dropWhile isJsonWs) with
            | error e => rw [hpv] at h; exact Except.noConfusion h
            | ok p2 =>
              obtain ⟨v, r5⟩ := p2
              rw [hpv] at h
              dsimp only at h
              obtain ⟨Cv, hCv, hGv⟩ := ihV _ _ _ hpv
              cases hr6 : r5.dropWhile isJsonWs with
              | nil => rw [hr6] at h; exact Except.noConfusion h
              | cons c3 r7 =>
                rw [hr6] at h
                dsimp only at h
                split_ifs at h with hrb hcm
                · injection h with h1
                  injection h1 with h1a h1b
                  refine ⟨(dquote :: B ++ [dquote]) ++ r1.takeWhile isJsonWs ++
                      (':' :: (r3.takeWhile isJsonWs ++
                        (Cv ++ r5.takeWhile isJsonWs ++ [Char.ofNat 125]))), ?_, ?_⟩
                  · rw [hdq, hB]
                    conv_lhs => rw [ws_split r1 (c2 :: r3) hr2]
                    rw [hcolon]
                    conv_lhs => rw [ws_split r3 (r3.dropWhile isJsonWs) rfl]
                    rw [hCv]
                    conv_lhs => rw [ws_split r5 (c3 :: r7) hr6]
                    rw [hrb, ← h1b]
                    simp [List.append_assoc]
                  · refine goodTok_glue _ _ _ (goodTok_string B hBn)
                      (tw_ws_not_btick r1) ?_
                    refine goodTok_cons_cont ':' ⟨by decide, by decide⟩ _ ?_
                    refine goodCont_of _ _ (tw_ws_mem r3) ?_
                    exact goodTok_glue Cv _ _ hGv (tw_ws_not_btick r5)
                      (goodTok_single _ ⟨by decide, by decide⟩)
                · cases hpf : parseObjFields f (r7.dropWhile isJsonWs) with
                  | error e => rw [hpf] at h; exact Except.noConfusion h
                  | ok p3 =>
                    obtain ⟨ps2, r8⟩ := p3
                    rw [hpf] at h
                    dsimp only at h
                    injection h with h1
                    injection h1 with h1a h1b
                    obtain ⟨C2, hC2, hG2⟩ := ihF _ _ _ hpf
                    refine ⟨(dquote :: B ++ [dquote]) ++ r1.takeWhile isJsonWs ++
                        (':' :: (r3.takeWhile isJsonWs ++
                          (Cv ++ r5.takeWhile isJsonWs ++
                            (',' :: (r7.takeWhile isJsonWs ++ C2))))), ?_, ?_⟩
                    · rw [hdq, hB]
                      conv_lhs => rw [ws_split r1 (c2 :: r3) hr2]
                      rw [hcolon]
                      conv_lhs => rw [ws_split r3 (r3.dropWhile isJsonWs) rfl]
                      rw [hCv]
                      conv_lhs => rw [ws_split r5 (c3 :: r7) hr6]
                      rw [hcm]
                      conv_lhs => rw [ws_split r7 (r7.dropWhile isJsonWs) rfl]
                      rw [hC2, ← h1b]
                      simp [List.append_assoc]
                    · refine goodTok_glue _ _ _ (goodTok_string B hBn)
                        (tw_ws_not_btick r1) ?_
                      refine goodTok_cons_cont ':' ⟨by decide, by decide⟩ _ ?_
                      refine goodCont_of _ _ (tw_ws_mem r3) ?_
                      refine goodTok_glue Cv _ _ hGv (tw_ws_not_btick r5) ?_
                      refine goodTok_cons_cont ',' ⟨by decide, by decide⟩ _ ?_
                      exact goodCont_of _ _ (tw_ws_mem r7) hG2

theorem dropWhile_id_of_head (l : List Char)
    (hh : ∀ c, l.head? = some c → isPyWs c = false) :
    l.dropWhile isPyWs = l := by
  cases l with
  | nil => rfl
  | cons c t =>
    rw [List.dropWhile_cons, if_neg]
    rw [hh c rfl]
    simp

theorem stripList_decomp (l : List Char) :
    ∃ P1 P2, l = P1 ++ stripList l ++ P2 ∧
      (∀ c ∈ P1, isPyWs c = true) ∧ (∀ c ∈ P2, isPyWs c = true) := by
  refine ⟨l.takeWhile isPyWs,
    ((l.dropWhile isPyWs).reverse.takeWhile isPyWs).reverse, ?_, ?_, ?_⟩
  · conv_lhs => rw [← List.takeWhile_append_dropWhile (p := isPyWs) (l := l)]
    rw [List.append_assoc]
    congr 1
    conv_lhs => rw [← List.reverse_reverse (l.dropWhile isPyWs)]
    conv_lhs =>
      rw [← List.takeWhile_append_dropWhile (p := isPyWs)
        (l := (l.dropWhile isPyWs).reverse)]
    rw [List.reverse_append]
    rfl
  · intro c hc
    exact List.mem_takeWhile_imp hc
  · intro c hc
    rw [List.mem_reverse] at hc
    exact List.mem_takeWhile_imp hc

theorem stripList_last (l : List Char) (c : Char)
    (h : (stripList l).getLast? = some c) : isPyWs c = false := by
  unfold stripList at h
  rw [List.getLast?_reverse] at h
  cases hm : (l.dropWhile isPyWs).reverse.dropWhile isPyWs with
  | nil => rw [hm] at h; exact Option.noConfusion h
  | cons q t =>
    rw [hm] at h
    injection h with h1
    rw [← h1]
    exact dropWhile_head_false _ _ _ _ hm

theorem stripList_head (l : List Char) (c : Char)
    (h : (stripList l).head? = some c) : isPyWs c = false := by
  unfold stripList at h
  rw [List.head?_reverse] at h
  cases hm : (l.dropWhile isPyWs).reverse.dropWhile isPyWs with
  | nil => rw [hm] at h; exact Option.noConfusion h
  | cons q t =>
    rw [hm] at h
    have hsplit : (l.dropWhile isPyWs).reverse =
        (l.dropWhile isPyWs).reverse.takeWhile isPyWs ++ (q :: t) := by
      conv_lhs =>
        rw [← List.takeWhile_append_dropWhile (p := isPyWs)
          (l := (l.dropWhile isPyWs).reverse)]
      rw [hm]
    have hlast : (l.dropWhile isPyWs).reverse.getLast? = some c := by
      rw [hsplit, List.getLast?_append_of_ne_nil _ (by simp)]
      exact h
    rw [List.getLast?_reverse] at hlast
    cases hd : l.dropWhile isPyWs with
    | nil => rw [hd] at hlast; exact Option.noConfusion hlast
    | cons q2 t2 =>
      rw [hd] at hlast
      injection hlast with h2
      rw [← h2]
      exact dropWhile_head_false _ _ _ _ hd

theorem stripList_id (l : List Char)
    (hh : ∀ c, l.head? = some c → isPyWs c = false)
    (hl : ∀ c, l.getLast? = some c → isPyWs c = false) :
    stripList l = l := by
  unfold stripList
  rw [dropWhile_id_of_head l hh, dropWhile_id_of_head, List.reverse_reverse]
  intro c hc
  rw [List.head?_reverse] at hc
  exact hl c hc

theorem jsonLoads_core (s : String) (v : Json) (h : jsonLoads s = .ok v) :
    ∃ C r, s.data.dropWhile isJsonWs = C ++ r ∧ GoodTok C ∧
      ∀ c ∈ r, isJsonWs c = true := by
  simp only [jsonLoads] at h
  cases hpv : parseVal (2 * (s.data.dropWhile isJsonWs).length + 2)
      (s.data.dropWhile isJsonWs) with
  | error e => rw [hpv] at h; exact Except.noConfusion h
  | ok p =>
    obtain ⟨v1, r⟩ := p
    rw [hpv] at h
    dsimp only at h
    split_ifs at h with hemp
    obtain ⟨C, hC, hG⟩ := (parser_good _).1 _ _ _ hpv
    refine ⟨C, r, hC, hG, ?_⟩
    rw [List.isEmpty_iff] at hemp
    exact List.dropWhile_eq_nil_iff.1 hemp

theorem strip_core (b : String) (v : Json) (hok : jsonLoads (pyStrip b) = .ok v) :
    GoodTok (pyStrip b).data := by
  obtain ⟨C, r, hC, hG, hr⟩ := jsonLoads_core _ _ hok
  have hdec : (pyStrip b).data =
      (pyStrip b).data.takeWhile isJsonWs ++ (C ++ r) := ws_split _ _ hC
  have hW1 : (pyStrip b).data.takeWhile isJsonWs = [] := by
    cases hw : (pyStrip b).data.takeWhile isJsonWs with
    | nil => rfl
    | cons w t =>
      have hwmem : isJsonWs w = true :=
        List.mem_takeWhile_imp (l := (pyStrip b).data)
          (by rw [hw]; exact List.mem_cons_self w t)
      have hhead : (pyStrip b).data.head? = some w := by
        conv_lhs => rw [hdec, hw]
        rfl
      have hnws := stripList_head b.data w hhead
      rw [jsonWs_isPyWs w hwmem] at hnws
      exact Bool.noConfusion hnws
  have hdata : (pyStrip b).data = C ++ r := by
    conv_lhs => rw [hdec, hW1]
    rfl
  have hr2 : r = [] := by
    cases hrc : r with
    | nil => rfl
    | cons w t =>
      obtain ⟨x, hx1, hx2⟩ : ∃ x, r.getLast? = some x ∧ x ∈ r := by
        rw [hrc]
        cases hgl : (w :: t).getLast? with
        | none =>
          rw [List.getLast?_eq_none_iff] at hgl
          exact List.noConfusion hgl
        | some x => exact ⟨x, rfl, List.mem_of_mem_getLast? hgl⟩
      have hlast : (pyStrip b).data.getLast? = some x := by
        rw [hdata, List.getLast?_append_of_ne_nil _ (by rw [hrc]; simp)]
        exact hx1
      have hnws := stripList_last b.data x hlast
      rw [jsonWs_isPyWs x (hr x hx2)] at hnws
      exact Bool.noConfusion hnws
  rw [hdata, hr2, List.append_nil]
  exact hG

theorem dropWhile_ws_through (A : List Char) (X : List Char)
    (hA : ∀ c ∈ A, isPyWs c = true)
    (hX : ∀ z, X.head? = some z → isPyWs z = false) :
    List.dropWhile isPyWs (A ++ X) = X := by
  induction A with
  | nil =>
    simp only [List.nil_append]
    exact dropWhile_id_of_head X hX
  | cons a A0 ih =>
    rw [List.cons_append, List.dropWhile_cons, if_pos]
    · exact ih fun c hc => hA c (List.mem_cons_of_mem a hc)
    · exact hA a (List.mem_cons_self a A0)

theorem fenceGo_nil (f : Nat) (ls : Bool) : fenceGo f ls [] = [] := by
  cases f <;> rfl

theorem no_fence_at (C T : List Char) (hch : List.Chain' adjOK C)
    (hlast : ∀ x, C.getLast? = some x → tokEdge x) :
    ∀ (D E : List Char), C = E ++ D → D ≠ [] →
    (List.isPrefixOf [btick, btick, btick] (D ++ T)
      && eolAt ((D ++ T).drop 3)) = false := by
  intro D E hE hne
  cases hb : List.isPrefixOf [btick, btick, btick] (D ++ T) with
  | false => rfl
  | true =>
    cases D with
    | nil => exact absurd rfl hne
    | cons d1 D1 =>
      rw [List.cons_append] at hb
      have h1 : (btick == d1 && List.isPrefixOf [btick, btick] (D1 ++ T)) = true := by
        simpa [List.isPrefixOf] using hb
      rw [Bool.and_eq_true] at h1
      obtain ⟨hd1, hb2⟩ := h1
      have hd1e : d1 = btick := (beq_iff_eq.1 hd1).symm
      cases D1 with
      | nil =>
        exfalso
        subst hd1e
        have hlast1 : C.getLast? = some btick := by
          rw [hE, List.getLast?_append_of_ne_nil _ (by simp)]
          rfl
        exact absurd rfl (hlast btick hlast1).2
      | cons d2 D2 =>
        rw [List.cons_append] at hb2
        have h2 : (btick == d2 && List.isPrefixOf [btick] (D2 ++ T)) = true := by
          simpa [List.isPrefixOf] using hb2
        rw [Bool.and_eq_true] at h2
        obtain ⟨hd2, hb3⟩ := h2
        have hd2e : d2 = btick := (beq_iff_eq.1 hd2).symm
        cases D2 with
        | nil =>
          exfalso
          subst hd1e
          subst hd2e
          have hlast2 : C.getLast? = some btick := by
            rw [hE, List.getLast?_append_of_ne_nil _ (by simp)]
            rfl
          exact absurd rfl (hlast btick hlast2).2
        | cons d3 D3 =>
          have h3 : (btick == d3) = true := by
            rw [List.cons_append] at hb3
            simpa [List.isPrefixOf] using hb3
          have hd3e : d3 = btick := (beq_iff_eq.1 h3).symm
          subst hd1e
          subst hd2e
          subst hd3e
          cases D3 with
          | nil =>
            exfalso
            have hlast3 : C.getLast? = some btick := by
              rw [hE, List.getLast?_append_of_ne_nil _ (by simp)]
              rfl
            exact absurd rfl (hlast btick hlast3).2
          | cons z D4 =>
            have hadj : adjOK btick z := by
              refine chain'_pair (E ++ [btick, btick]) C btick z D4 hch ?_
              rw [hE]
              simp
            have hz : z ≠ '\n' := fun hzz => hadj.2 ⟨rfl, hzz⟩
            simp [eolAt, hz]

theorem fenceGo_tail (Z : List Char) (hZ : ∀ c ∈ Z, isPyWs c = true) (f : Nat) :
    fenceGo (f + 1) false (Z ++ [btick, btick, btick]) = [] := by
  have hdw : List.dropWhile isPyWs (Z ++ [btick, btick, btick])
      = [btick, btick, btick] := by
    refine dropWhile_ws_through Z [btick, btick, btick] hZ ?_
    intro z hz
    injection hz with hz
    rw [← hz]
    decide
  cases hZc : Z ++ [btick, btick, btick] with
  | nil => simp at hZc
  | cons c rest =>
    simp only [fenceGo, Bool.false_and, Bool.false_eq_true, if_false]
    rw [← hZc, hdw]
    simp [fenceGo_nil, eolAt]

theorem fenceGo_core (C T : List Char) (hch : List.Chain' adjOK C)
    (hlast : ∀ x, C.getLast? = some x → tokEdge x) :
    ∀ (D : List Char), ∀ (E : List Char), C = E ++ D →
    ∀ (f : Nat) (ls : Bool),
    (ls = true → ∀ z, D.head? = some z → z ≠ btick) →
    (D = [] → ls = false) →
    fenceGo (D.length + f) ls (D ++ T) = D ++ fenceGo f false T := by
  intro D
  induction D with
  | nil =>
    intro E hE f ls hls hnil
    rw [hnil rfl]
    simp
  | cons c D0 ih =>
    intro E hE f ls hls hnil
    have hlastD : ∀ x, (c :: D0).getLast? = some x → tokEdge x := by
      intro x hx
      apply hlast
      rw [hE, List.getLast?_append_of_ne_nil _ (by simp)]
      exact hx
    have hfuel : (c :: D0).length + f = (D0.length + f) + 1 := by
      rw [List.length_cons]
      omega
    rw [hfuel, List.cons_append]
    simp only [fenceGo]
    have hc1 : (ls && List.isPrefixOf [btick, btick, btick] (c :: (D0 ++ T)))
        = false := by
      cases hls2 : ls
      · rfl
      · have hcb : c ≠ btick := hls hls2 c rfl
        have hbe : (btick == c) = false := by
          cases hbc : btick == c
          · rfl
          · exact absurd (beq_iff_eq.1 hbc).symm hcb
        simp [List.isPrefixOf, hbe]
    rw [hc1]
    simp only [Bool.false_eq_true, if_false]
    have hD'ne : (c :: D0).dropWhile isPyWs ≠ [] := by
      intro hD'
      rw [List.dropWhile_eq_nil_iff] at hD'
      cases hgl : (c :: D0).getLast? with
      | none =>
        rw [List.getLast?_eq_none_iff] at hgl
        exact List.noConfusion hgl
      | some x =>
        have hx := hlastD x hgl
        have hmem : x ∈ c :: D0 := List.mem_of_mem_getLast? hgl
        have hws := hD' x hmem
        rw [hx.1] at hws
        exact Bool.noConfusion hws
    have hie : ((c :: D0).dropWhile isPyWs).isEmpty = false := by
      cases hi : ((c :: D0).dropWhile isPyWs).isEmpty
      · rfl
      · rw [List.isEmpty_iff] at hi
        exact absurd hi hD'ne
    have hdropA : List.dropWhile isPyWs (c :: (D0 ++ T))
        = (c :: D0).dropWhile isPyWs ++ T := by
      rw [← List.cons_append, List.dropWhile_append, hie]
      simp
    have hEC : C = (E ++ (c :: D0).takeWhile isPyWs) ++ (c :: D0).dropWhile isPyWs := by
      rw [hE]
      conv_lhs =>
        rw [← List.takeWhile_append_dropWhile (p := isPyWs) (l := c :: D0)]
      simp [List.append_assoc]
    have hc2 := no_fence_at C T hch hlast ((c :: D0).dropWhile isPyWs)
      (E ++ (c :: D0).takeWhile isPyWs) hEC hD'ne
    rw [hdropA, hc2]
    simp only [Bool.false_eq_true, if_false]
    have hE2 : C = (E ++ [c]) ++ D0 := by
      rw [hE]
      simp
    have hls2 : decide (c = '\n') = true → ∀ z, D0.head? = some z → z ≠ btick := by
      intro hcd z hz
      have hcn : c = '\n' := of_decide_eq_true hcd
      cases D0 with
      | nil => exact absurd hz (by simp)
      | cons z0 D1 =>
        injection hz with hz0
        have hadj : adjOK c z0 := chain'_pair E C c z0 D1 hch hE
        rw [← hz0]
        intro hzb
        exact hadj.1 ⟨hcn, hzb⟩
    have hnil2 : D0 = [] → decide (c = '\n') = false := by
      intro hD0
      have hcl : (c :: D0).getLast? = some c := by rw [hD0]; rfl
      have hte := hlastD c hcl
      exact decide_eq_false (tokEdge_not_nl c hte)
    rw [ih (E ++ [c]) hE2 f (decide (c = '\n')) hls2 hnil2]
    simp

theorem fenceGo_core_result (C Z : List Char) (hGood : GoodTok C)
    (hZ : ∀ c ∈ Z, isPyWs c = true) (ls : Bool) (F : Nat) (hF : 1 ≤ F) :
    fenceGo (C.length + F) ls (C ++ (Z ++ [btick, btick, btick])) = C := by
  obtain ⟨hne, hhead, hlastE, hch⟩ := hGood
  obtain ⟨F2, rfl⟩ : ∃ F2, F = F2 + 1 := ⟨F - 1, by omega⟩
  have h1 := fenceGo_core C (Z ++ [btick, btick, btick]) hch hlastE C []
    (by simp) (F2 + 1) ls (fun _ z hz => (hhead z hz).2) (fun hc => absurd hc hne)
  rw [h1, fenceGo_tail Z hZ F2, List.append_nil]

theorem length_dropWhile_le (p : Char → Bool) (l : List Char) :
    (l.dropWhile p).length ≤ l.length := by
  induction l with
  | nil => simp
  | cons a t ih =>
    rw [List.dropWhile_cons]
    split_ifs
    · exact le_trans ih (by simp)
    · simp

theorem stripList_length_le (l : List Char) : (stripList l).length ≤ l.length := by
  unfold stripList
  rw [List.length_reverse]
  calc ((l.dropWhile isPyWs).reverse.dropWhile isPyWs).length
      ≤ (l.dropWhile isPyWs).reverse.length := length_dropWhile_le _ _
    _ = (l.dropWhile isPyWs).length := List.length_reverse _
    _ ≤ l.length := length_dropWhile_le _ _

theorem cleanFences_unwrapped (b : String) (v : Json)
    (hok : jsonLoads (pyStrip b) = .ok v) : cleanFences b = pyStrip b := by
  obtain ⟨hne, hhead, hlastE, hch⟩ := strip_core b v hok
  have hpre : List.isPrefixOf [btick, btick, btick] (pyStrip b).data = false := by
    cases hd : (pyStrip b).data with
    | nil => exact absurd hd hne
    | cons c rest =>
      have hcb : c ≠ btick := (hhead c (by rw [hd]; rfl)).2
      have hbe : (btick == c) = false := by
        cases hbc : btick == c
        · rfl
        · exact absurd (beq_iff_eq.1 hbc).symm hcb
      simp [List.isPrefixOf, hbe]
  simp [cleanFences, hpre]

theorem parse_of_resub (s b : String) (v : Json)
    (hok : jsonLoads (pyStrip b) = .ok v)
    (hpre : List.isPrefixOf [btick, btick, btick] (pyStrip s).data = true)
    (hres : resubFences (pyStrip s).data = (pyStrip b).data) :
    parse_gemini_response s = v := by
  have hcf : cleanFences s = pyStrip b := by
    simp only [cleanFences, hpre]
    rw [hres, if_pos trivial]
  rw [parse_gemini_response_eq, hcf, hok]

theorem tryNumber_j (rest : List Char) : tryNumber ('j' :: rest) = none := rfl

theorem parseVal_j (f : Nat) (rest : List Char) :
    parseVal (f + 1) ('j' :: rest) = .error "Expecting value" := by
  have pn : List.isPrefixOf "null".data ('j' :: rest) = false := by
    rw [show "null".data = ['n', 'u', 'l', 'l'] from by decide]
    simp [List.isPrefixOf, show (('n' : Char) == 'j') = false from by decide]
  have pt : List.isPrefixOf "true".data ('j' :: rest) = false := by
    rw [show "true".data = ['t', 'r', 'u', 'e'] from by decide]
    simp [List.isPrefixOf, show (('t' : Char) == 'j') = false from by decide]
  have pf : List.isPrefixOf "false".data ('j' :: rest) = false := by
    rw [show "false".data = ['f', 'a', 'l', 's', 'e'] from by decide]
    simp [List.isPrefixOf, show (('f' : Char) == 'j') = false from by decide]
  have pN : List.isPrefixOf "NaN".data ('j' :: rest) = false := by
    rw [show "NaN".data = ['N', 'a', 'N'] from by decide]
    simp [List.isPrefixOf, show (('N' : Char) == 'j') = false from by decide]
  have pI : List.isPrefixOf "Infinity".data ('j' :: rest) = false := by
    rw [show "Infinity".data = ['I', 'n', 'f', 'i', 'n', 'i', 't', 'y'] from by decide]
    simp [List.isPrefixOf, show (('I' : Char) == 'j') = false from by decide]
  have pm : List.isPrefixOf "-Infinity".data ('j' :: rest) = false := by
    rw [show "-Infinity".data = ['-', 'I', 'n', 'f', 'i', 'n', 'i', 't', 'y'] from by decide]
    simp [List.isPrefixOf, show (('-' : Char) == 'j') = false from by decide]
  simp only [parseVal, tryNumber_j]
  rw [if_neg (by decide : ¬ (('j' : Char) = dquote)),
    if_neg (by decide : ¬ (('j' : Char) = Char.ofNat 123)),
    if_neg (by decide : ¬ (('j' : Char) = '[')),
    if_neg (by simp [pn]), if_neg (by simp [pt]), if_neg (by simp [pf]),
    if_neg (by simp [pN]), if_neg (by simp [pI]), if_neg (by simp [pm])]

theorem core_head_not_j (b : String) (v : Json)
    (hok : jsonLoads (pyStrip b) = .ok v) :
    ∀ z, (pyStrip b).data.head? = some z → z ≠ 'j' := by
  intro z hz hzj
  subst hzj
  cases hd : (pyStrip b).data with
  | nil => rw [hd] at hz; exact Option.noConfusion hz
  | cons c rest =>
    rw [hd, List.head?_cons] at hz
    injection hz with hz
    subst hz
    simp only [jsonLoads] at hok
    rw [hd] at hok
    have hdw : List.dropWhile isJsonWs ('j' :: rest) = 'j' :: rest := by
      rw [List.dropWhile_cons, if_neg]
      intro hws
      exact absurd hws (by decide)
    rw [hdw] at hok
    have hfuel : 2 * ('j' :: rest).length + 2 = (2 * ('j' :: rest).length + 1) + 1 := by
      omega
    rw [hfuel, parseVal_j] at hok
    exact Except.noConfusion
      (show (Except.error "Expecting value" : Except String Json)
        = Except.ok v from hok)

theorem fence_step1_json (X : List Char) (f : Nat) :
    fenceGo (f + 1) true
        (btick :: btick :: btick :: 'j' :: 's' :: 'o' :: 'n' :: X)
      = fenceGo f (match (List.takeWhile isPyWs X).getLast? with
          | some lc => decide (lc = '\n')
          | none => false) (List.dropWhile isPyWs X) := by
  have hjson : "json".data = ['j', 's', 'o', 'n'] := by decide
  simp only [fenceGo]
  have hc1 : (true && List.isPrefixOf [btick, btick, btick]
      (btick :: btick :: btick :: 'j' :: 's' :: 'o' :: 'n' :: X)) = true := by
    simp [List.isPrefixOf]
  simp only [hc1, eq_self_iff_true, if_true]
  simp only [show List.drop 3 (btick :: btick :: btick :: 'j' :: 's' :: 'o' :: 'n' :: X)
    = 'j' :: 's' :: 'o' :: 'n' :: X from rfl]
  have hjp : List.isPrefixOf "json".data ('j' :: 's' :: 'o' :: 'n' :: X) = true := by
    simp [hjson, List.isPrefixOf]
  simp only [hjp, eq_self_iff_true, if_true]
  simp only [show List.drop 4 ('j' :: 's' :: 'o' :: 'n' :: X) = X from rfl]

theorem fence_step1_notag (h : Char) (Y : List Char) (f : Nat) (hj : h ≠ 'j') :
    fenceGo (f + 1) true (btick :: btick :: btick :: h :: Y)
      = fenceGo f (match (List.takeWhile isPyWs (h :: Y)).getLast? with
          | some lc => decide (lc = '\n')
          | none => false) (List.dropWhile isPyWs (h :: Y)) := by
  simp only [fenceGo]
  have hc1 : (true && List.isPrefixOf [btick, btick, btick]
      (btick :: btick :: btick :: h :: Y)) = true := by
    simp [List.isPrefixOf]
  simp only [hc1, eq_self_iff_true, if_true]
  simp only [show List.drop 3 (btick :: btick :: btick :: h :: Y) = h :: Y from rfl]
  have hjb : (('j' : Char) == h) = false := by
    cases hbc : ('j' : Char) == h
    · rfl
    · exact absurd (beq_iff_eq.1 hbc).symm hj
  have hjp : List.isPrefixOf "json".data (h :: Y) = false := by
    rw [show "json".data = ['j', 's', 'o', 'n'] from by decide]
    simp [List.isPrefixOf, hjb]
  simp only [hjp, Bool.false_eq_true, if_false]

theorem resub_core (b : String) (v : Json) (hok : jsonLoads (pyStrip b) = .ok v)
    (W1 Z : List Char) (hW1 : ∀ c ∈ W1, isPyWs c = true)
    (hZ : ∀ c ∈ Z, isPyWs c = true)
    (F : Nat) (hF : (pyStrip b).data.length + 1 ≤ F) (ls : Bool)
    (L : List Char)
    (hL : L = W1 ++ ((pyStrip b).data ++ (Z ++ [btick, btick, btick]))) :
    fenceGo F ls (List.dropWhile isPyWs L) = (pyStrip b).data := by
  have hGood : GoodTok (pyStrip b).data := strip_core b v hok
  have hdw : List.dropWhile isPyWs L
      = (pyStrip b).data ++ (Z ++ [btick, btick, btick]) := by
    rw [hL]
    refine dropWhile_ws_through W1 _ hW1 ?_
    intro z hz
    cases hcs : (pyStrip b).data with
    | nil => exact absurd hcs hGood.1
    | cons c0 C0 =>
      rw [hcs, List.cons_append, List.head?_cons] at hz
      injection hz with hz
      rw [← hz]
      exact (hGood.2.1 c0 (by rw [hcs]; rfl)).1
  rw [hdw]
  obtain ⟨F2, hFeq, hF2⟩ : ∃ F2, F = (pyStrip b).data.length + F2 ∧ 1 ≤ F2 :=
    ⟨F - (pyStrip b).data.length, by omega, by omega⟩
  rw [hFeq]
  exact fenceGo_core_result _ Z hGood hZ ls F2 hF2

theorem resub_wrapped (s b : String) (v : Json)
    (hok : jsonLoads (pyStrip b) = .ok v)
    (tagl W1 Z : List Char)
    (htag : tagl = ['j', 's', 'o', 'n'] ∨ tagl = [])
    (hW1 : ∀ c ∈ W1, isPyWs c = true) (hZ : ∀ c ∈ Z, isPyWs c = true)
    (hs : (pyStrip s).data
        = [btick, btick, btick] ++ tagl
            ++ (W1 ++ ((pyStrip b).data ++ (Z ++ [btick, btick, btick])))) :
    resubFences (pyStrip s).data = (pyStrip b).data := by
  have hGood : GoodTok (pyStrip b).data := strip_core b v hok
  simp only [resubFences]
  rw [hs]
  rcases htag with rfl | rfl
  · simp only [List.cons_append, List.nil_append]
    rw [fence_step1_json]
    refine resub_core b v hok W1 Z hW1 hZ _ ?_ _ _ rfl
    simp [List.length_cons, List.length_append]
    omega
  · simp only [List.cons_append, List.nil_append]
    cases W1 with
    | nil =>
      simp only [List.nil_append]
      cases hcs : (pyStrip b).data with
      | nil => exact absurd hcs hGood.1
      | cons c0 C0 =>
        simp only [List.cons_append]
        have hc0j : c0 ≠ 'j' := by
          refine core_head_not_j b v hok c0 ?_
          rw [hcs]
          rfl
        rw [fence_step1_notag c0 _ _ hc0j, ← hcs]
        refine resub_core b v hok [] Z (by simp) hZ _ ?_ _ _ ?_
        · simp [List.length_cons, List.length_append, hcs]
          omega
        · rw [hcs]
          simp
    | cons w W1Q =>
      simp only [List.cons_append]
      have hwj : w ≠ 'j' := by
        intro hwj
        have hws := hW1 w (List.mem_cons_self w W1Q)
        rw [hwj] at hws
        exact absurd hws (by decide)
      rw [fence_step1_notag w _ _ hwj]
      refine resub_core b v hok (w :: W1Q) Z hW1 hZ _ ?_ _ _ ?_
      · simp [List.length_cons, List.length_append]
        omega
      · simp

/-- Claim C2 (corrected): for every raw text whose whitespace-stripped form
is exactly a fenced code block — three backticks, optionally the language
tag `json`, any whitespace, an interior whose own stripped form decodes as
JSON, any whitespace, and the closing three-backtick fence — and every such
presentation of the interior, `parse_gemini_response` on the raw text and
on the interior text alone agree: both return exactly the decoded value.
The claim as frozen — for arbitrary language tags — fails (see the
counterexample with a `python` tag), because the substitution removes only
bare or `json`-tagged fence markers. -/
theorem fenced_wrapping_preserves_parse (tag s b : String) (v : Json)
    (htag : tag = "json" ∨ tag = "")
    (W1 Z : List Char)
    (hW1 : ∀ c ∈ W1, isPyWs c = true) (hZ : ∀ c ∈ Z, isPyWs c = true)
    (hs : (pyStrip s).data
        = [btick, btick, btick] ++ tag.data
            ++ (W1 ++ ((pyStrip b).data ++ (Z ++ [btick, btick, btick]))))
    (hok : jsonLoads (pyStrip b) = .ok v) :
    parse_gemini_response s = v ∧ parse_gemini_response b = v := by
  have htagl : tag.data = ['j', 's', 'o', 'n'] ∨ tag.data = [] := by
    rcases htag with rfl | rfl
    · exact Or.inl (by decide)
    · exact Or.inr (by decide)
  constructor
  · refine parse_of_resub s b v hok ?_ ?_
    · rw [hs]
      simp [List.isPrefixOf]
    · exact resub_wrapped s b v hok tag.data W1 Z htagl hW1 hZ hs
  · rw [parse_gemini_response_eq, cleanFences_unwrapped b v hok, hok]

/-- Witness for the corrected C2 at the fenced input of the claim text
(tag `json`, newline separation, interior `{"a":1}`) and at the same block
with single-space separation instead of newlines. -/
theorem fenced_wrapping_preserves_parse_witness :
    (("json" : String) = "json" ∨ ("json" : String) = "") ∧
    (∀ c ∈ ['\n'], isPyWs c = true) ∧
    (pyStrip "```json\n\x7b\"a\":1\x7d\n```").data
      = [btick, btick, btick] ++ ("json" : String).data
          ++ (['\n'] ++ ((pyStrip "\x7b\"a\":1\x7d").data
              ++ (['\n'] ++ [btick, btick, btick]))) ∧
    jsonLoads (pyStrip "\x7b\"a\":1\x7d") = .ok (.obj [("a", .num (.int 1))]) ∧
    parse_gemini_response "```json\n\x7b\"a\":1\x7d\n```"
      = .obj [("a", .num (.int 1))] ∧
    parse_gemini_response "\x7b\"a\":1\x7d" = .obj [("a", .num (.int 1))] ∧
    parse_gemini_response "```json \x7b\"a\":1\x7d ```"
      = .obj [("a", .num (.int 1))] :=
  ⟨Or.inl rfl, by decide, by decide, rfl,
    (fenced_wrapping_preserves_parse "json" "```json\n\x7b\"a\":1\x7d\n```"
      "\x7b\"a\":1\x7d" (.obj [("a", .num (.int 1))]) (Or.inl rfl) ['\n'] ['\n']
      (by decide) (by decide) (by decide) rfl).1,
    (fenced_wrapping_preserves_parse "json" "```json\n\x7b\"a\":1\x7d\n```"
      "\x7b\"a\":1\x7d" (.obj [("a", .num (.int 1))]) (Or.inl rfl) ['\n'] ['\n']
      (by decide) (by decide) (by decide) rfl).2,
    (fenced_wrapping_preserves_parse "json" "```json \x7b\"a\":1\x7d ```"
      "\x7b\"a\":1\x7d" (.obj [("a", .num (.int 1))]) (Or.inl rfl) [' '] [' ']
      (by decide) (by decide) (by decide) rfl).1⟩

/-- Counterexample to C2 as frozen: the input starts (after stripping) with a
fenced code-block marker carrying the language tag `python` and ends with a
matching fence, yet the parse of the wrapped text is the parse-failure
mapping while the parse of the interior content is the decoded object. -/
theorem fenced_python_tag_differs :
    parse_gemini_response "```python\n\x7b\"a\":1\x7d\n```"
        = parseFailure "```python\n\x7b\"a\":1\x7d\n```" "Expecting value" ∧
    parse_gemini_response "\x7b\"a\":1\x7d" = .obj [("a", .num (.int 1))] ∧
    parse_gemini_response "```python\n\x7b\"a\":1\x7d\n```"
        ≠ parse_gemini_response "\x7b\"a\":1\x7d" := by
  refine ⟨rfl, rfl, ?_⟩
  intro h
  have h2 : parseFailure "```python\n\x7b\"a\":1\x7d\n```" "Expecting value"
      = Json.obj [("a", Json.num (JNum.int 1))] := h
  simp [parseFailure] at h2
